import Mathlib

/-!
# Verification of the atlas `LoaderService` staged bootstrap scheduler

This file gives a shallow embedding of the scheduler implemented in
`packages/shared/src/services/base-event.service.ts` (class `LoaderService`),
the `Autoload` decorator of
`packages/atlas-shared/src/decorators/loader.decorator.ts`, and the queue
item model `LoaderServiceQueueItemModel`.

The scheduler is event driven: RxJS `Subject`s carry the per-phase item
counts, `takeLast(1)` subscriptions fire when a count subject completes
(the "drained" event) and schedule the next phase on the following tick,
and each registered item's method receives a completion callback that is
the sole signal of its logical completion.  We model a run as a fold of a
small-step transition function over an arbitrary list of environment
events (warm-up timer firing, tick-queue dispatch, asynchronous completion
callbacks firing, watchdog timeouts firing, `done` registrations, repeated
`bootstrap` calls).  The synchronous call structure of
`processQueue` / `processQueueItem` / `doneCallback` is reproduced exactly,
including the `Subject` semantics the code relies on: `next` after
`complete` is a no-op, `complete` is idempotent, and the
`filter(size => size !== 0)` subscription installed by `processQueue`
synchronously re-enters `processQueueItem` from inside `doneCallback`.

Timer primitives: `UtilsService.setTimeout` and `UtilsService.clearInterval`
resolve distinct host functions (`alt.setTimeout` / `alt.clearInterval`).
The embedding records every cancellation call in the trace with the
primitive that was used, so that the (mis)match between the one-shot
watchdog handle and the cancellation call is observable.  Because the
cancellation primitive used by `doneCallback` does not match the handle
type it receives, the model conservatively leaves an armed watchdog
fireable; the watchdog handler touches no queue state, so this choice is
irrelevant to the queue-ordering theorems.
-/

/-- The four bootstrap phases, in the fixed order the scheduler drains them.
Constructor order mirrors `LoaderServiceQueueModel`'s fields. -/
inductive Phase where
  | frameworkBeforeBoot
  | before
  | after
  | frameworkAfterBoot
deriving DecidableEq, Repr

/-- Position of a phase in the fixed draining order. -/
def phasePos : Phase → Nat
  | .frameworkBeforeBoot => 0
  | .before => 1
  | .after => 2
  | .frameworkAfterBoot => 3

/-- A registration descriptor: one entry of the metadata list consumed by
`resolveMetaDataAndAdd`, together with the runtime behaviour of the
registered method (whether the resolved instance exposes it, and whether
the method invokes its completion callback synchronously or stores it to
be fired later by the environment). -/
structure Reg where
  type : Phase
  targetName : String
  methodName : String
  doneCheckTimeout : Nat
  hasMethod : Bool
  sync : Bool
deriving DecidableEq, Repr

/-- The identity key `LoaderService.add` computes:
`` `${targetName}_${queueItem.methodName}` ``. -/
def regKey (r : Reg) : String := r.targetName ++ "_" ++ r.methodName

/-- One phase queue entry: key paired with its registration. -/
abbrev Entry := String × Reg

/-- JS `Map.set` semantics: overwrite in place if the key is present
(keeping its insertion position), otherwise append. -/
def mapSet (m : List Entry) (k : String) (v : Reg) : List Entry :=
  if m.any (fun e => e.1 = k) then
    m.map (fun e => if e.1 = k then (k, v) else e)
  else m ++ [(k, v)]

/-- `LoaderService.add`: insert one registration into the queue of its phase. -/
def addReg (qs : Phase → List Entry) (r : Reg) : Phase → List Entry :=
  fun p => if p = r.type then mapSet (qs r.type) (regKey r) r else qs p

/-- `resolveMetaDataAndAdd` over an explicit registration list, starting
from empty queues: the initial content of the four phase queues. -/
def initQueues (regs : List Reg) : Phase → List Entry :=
  regs.foldl addReg (fun _ => [])

/-- Tasks sitting in the next-tick queue (`UtilsService.nextTick`). -/
inductive TickTask where
  | processQ (p : Phase)
  | finishBoot
  | fireFinish
deriving DecidableEq, Repr

/-- Observable happenings, recorded in order.  `clearedIntervalCall` /
`clearedTimeoutCall` record which host cancellation primitive was invoked
with which handle (`UtilsService.clearInterval` resp.
`UtilsService.clearTimeout`). -/
inductive Ev where
  | started (p : Phase) (k : String)
  | completedIt (p : Phase) (k : String)
  | drained (p : Phase)
  | missingMethod (p : Phase) (k : String)
  | armedTimer (tid : Nat) (dur : Nat)
  | clearedIntervalCall (tid : Nat)
  | clearedTimeoutCall (tid : Nat)
  | warned (tid : Nat)
  | registeredDone (cb : Nat)
  | finished
  | invoked (cb : Nat) (args : List Bool)
deriving DecidableEq, Repr

/-- The scheduler state.

* `queues` — the four `Map<string, LoaderServiceQueueItemModel>` phase
  queues, in insertion order.
* `subscribed p` — whether `processQueue` has installed its
  `filter(size !== 0)` subscription on phase `p`'s count subject.
* `completedSubj p` — whether phase `p`'s count subject has completed
  (the drained event for `p` has fired).
* `ticks` — the pending next-tick callbacks, in FIFO order.
* `stored` — completion callbacks handed to asynchronous item methods and
  not yet invoked; each is closed over (phase queue, item key, watchdog
  handle), exactly as `doneCallback.bind` closes over them.
* `timers` — armed, not yet fired watchdog `setTimeout` handles.
* `registered` — callbacks subscribed on `finishSubject$` via `done`.
* `finishCompleted` — whether `finishSubject$` has completed. -/
structure SchedState where
  queues : Phase → List Entry
  subscribed : Phase → Bool
  completedSubj : Phase → Bool
  ticks : List TickTask
  stored : List (Phase × String × Nat)
  timers : List Nat
  nextTimer : Nat
  warmupArmed : Bool
  warmupDone : Bool
  registered : List Nat
  nextCb : Nat
  finishCompleted : Bool
  isBootstrapped : Bool
  trace : List Ev

/-- The subscription `bootstrap` wires on each phase's count observable via
`takeLast(1)`: completion of phase `p` schedules, on the next tick, the
processing of the next phase — and after the last phase, `finishUpBooting`
plus the resolution of the root target. -/
def nextTaskOf : Phase → TickTask
  | .frameworkBeforeBoot => .processQ .before
  | .before => .processQ .after
  | .after => .processQ .frameworkAfterBoot
  | .frameworkAfterBoot => .finishBoot

/-- Stage 1 of `doneCallback`: if a watchdog handle was bound, call
`UtilsService.clearInterval` on it (the source passes the `setTimeout`
handle to the interval-cancellation primitive). -/
def recordClearCall (st : SchedState) : Option Nat → SchedState
  | some t => { st with trace := st.trace ++ [Ev.clearedIntervalCall t] }
  | none => st

/-- Stage 2 of `doneCallback`: if a key was bound, `property.delete(key)`. -/
def deleteByKey (st : SchedState) (p : Phase) : Option String → SchedState
  | some k =>
    { st with
      queues := fun q =>
        if q = p then (st.queues p).filter (fun e => e.1 ≠ k)
        else st.queues q,
      trace := st.trace ++ [Ev.completedIt p k] }
  | none => st

/-- Stage 3 of `doneCallback`: `propertyCount.next(property.size)` — a live
subject notifies the `filter(size !== 0)` subscriber installed by
`processQueue`, which synchronously runs `processQueueItem` (`next`). -/
def notifyCount (st : SchedState) (p : Phase)
    (next : SchedState → SchedState) : SchedState :=
  if st.subscribed p = true ∧ st.completedSubj p = false ∧
      (st.queues p).length ≠ 0 then next st else st

/-- Stage 4 of `doneCallback`: re-read `property.size`; if zero and the
subject is still live, complete it — the `takeLast(1)` subscriber then
schedules the next phase on a subsequent tick.  (The code always pushes a
value before completing, so `takeLast(1)` always emits and its subscriber
does fire.) -/
def completeIfEmpty (st : SchedState) (p : Phase) : SchedState :=
  if (st.queues p).length = 0 ∧ st.completedSubj p = false then
    { st with
      completedSubj := fun q => if q = p then true else st.completedSubj q,
      ticks := st.ticks ++ [nextTaskOf p],
      trace := st.trace ++ [Ev.drained p] }
  else st

/-- `LoaderService.doneCallback`, parameterised over the synchronous
continuation `next` that re-enters `processQueueItem` (the
`filter(size !== 0)` subscriber installed by `processQueue`): cancel the
watchdog (stage 1), delete the key (stage 2), push the new size (stage 3),
complete the subject if the queue just emptied (stage 4). -/
def dcbCore (st : SchedState) (p : Phase) (key? : Option String)
    (tid? : Option Nat) (next : SchedState → SchedState) : SchedState :=
  completeIfEmpty (notifyCount (deleteByKey (recordClearCall st tid?) p key?) p next) p

/-- Arm the watchdog `setTimeout` for the item at the head of phase `p`'s
queue and invoke its method (the `started` event); the handle is
`st.nextTimer`. -/
def armWatchdog (st : SchedState) (p : Phase) (k : String) (r : Reg) :
    SchedState :=
  { st with
    nextTimer := st.nextTimer + 1,
    timers := st.timers ++ [st.nextTimer],
    trace := st.trace ++ [Ev.armedTimer st.nextTimer r.doneCheckTimeout,
                          Ev.started p k] }

/-- One pass of `LoaderService.processQueueItem`, parameterised over the
continuation used when a synchronous method invokes its completion
callback immediately: take the earliest entry; if the resolved instance
lacks the method, log and return (no removal, no watchdog, no advance);
otherwise arm the watchdog `setTimeout`, then invoke the method with the
bound completion callback.  An asynchronous method merely stores the
callback for the environment to fire later. -/
def pqiStep (st : SchedState) (p : Phase) (next : SchedState → SchedState) :
    SchedState :=
  match (st.queues p).head? with
  | none => st
  | some (k, r) =>
    if r.hasMethod = false then
      { st with trace := st.trace ++ [Ev.missingMethod p k] }
    else
      let tid := st.nextTimer
      let st1 := armWatchdog st p k r
      if r.sync then dcbCore st1 p (some k) (some tid) next
      else { st1 with stored := st1.stored ++ [(p, k, tid)] }

/-- `processQueueItem` with fuel bounding the depth of the synchronous
completion cascade.  Each cascade level removes one queue entry, so fuel
equal to the queue length never truncates. -/
def pqiGo : Nat → SchedState → Phase → SchedState
  | 0, st, p => pqiStep st p id
  | Nat.succ f, st, p => pqiStep st p (fun s => pqiGo f s p)

/-- `LoaderService.processQueue`: an empty queue is drained at once (the
`doneCallback(property, propertyCount)` call with no key and no handle);
otherwise install the `filter(size !== 0)` subscription, then process the
first item. -/
def processQueueFn (st : SchedState) (p : Phase) : SchedState :=
  if (st.queues p).length = 0 then
    dcbCore st p none none id
  else
    pqiGo (st.queues p).length
      { st with subscribed := fun q => if q = p then true else st.subscribed q }
      p

/-- Run a completion callback that an asynchronous method stored: the
continuation re-enters `processQueueItem` with fuel adequate for the
remaining queue. -/
def runStoredDone (st : SchedState) (p : Phase) (k : String) (tid : Nat) :
    SchedState :=
  dcbCore st p (some k) (some tid) (fun s => pqiGo (s.queues p).length s p)

/-- Dispatch one next-tick task.  `finishBoot` models the
`frameworkAfterBootCount$` subscriber body: `finishUpBooting target`
registers a once-only `afterResolution` hook and `container.resolve target`
triggers it, which in turn schedules the finish-signal emission on the
next tick.  `fireFinish` models that emission: `finishSubject$.next(true)`
notifies every subscriber with the value `true`, then the subject
completes; both are no-ops on an already completed subject. -/
def runTask (st : SchedState) : TickTask → SchedState
  | .processQ p => processQueueFn st p
  | .finishBoot => { st with ticks := st.ticks ++ [TickTask.fireFinish] }
  | .fireFinish =>
    if st.finishCompleted then st
    else
      { st with
        trace := st.trace ++ [Ev.finished] ++
          st.registered.map (fun c => Ev.invoked c [true]),
        finishCompleted := true }

/-- `LoaderService.bootstrap`: a no-op when already bootstrapped; otherwise
populate the four phase queues from the registration metadata, wire the
phase-chaining subscriptions (embodied in `step` / `runTask`), push the
initial counts (observably inert: no `filter` subscriber exists yet and
`takeLast(1)` only reacts to completion), and arm the 125 ms warm-up
timeout of `startLoading`. -/
def bootstrapFn (regs : List Reg) (st : SchedState) : SchedState :=
  if st.isBootstrapped then st
  else
    { st with
      queues := regs.foldl addReg st.queues,
      warmupArmed := true,
      isBootstrapped := true }

/-- `done(callback)`: subscribe on `finishSubject$` through
`filter(isFinished => isFinished)`.  Subscribing to an already completed
subject yields no emissions, so the callback is recorded but never wired. -/
def doneRegister (st : SchedState) : SchedState :=
  let st1 := { st with
    trace := st.trace ++ [Ev.registeredDone st.nextCb],
    nextCb := st.nextCb + 1 }
  if st.finishCompleted then st1
  else { st1 with registered := st1.registered ++ [st.nextCb] }

/-- Environment events driving a run: the warm-up timeout firing, the host
dispatching the next tick callback, an asynchronous item invoking its
stored completion callback, a watchdog timeout elapsing, a `done`
registration, and a (repeated) `bootstrap` call. -/
inductive EEvent where
  | warmup
  | tick
  | fireDone (i : Nat)
  | fireTimer (tid : Nat)
  | regDone
  | callBootstrap (regs : List Reg)
deriving Repr

/-- Small-step transition.  Invalid events (no pending tick, unknown
callback index, unarmed timer, warm-up already fired) are no-ops. -/
def step (st : SchedState) : EEvent → SchedState
  | .warmup =>
    if st.warmupArmed = true ∧ st.warmupDone = false then
      { st with
        warmupDone := true,
        ticks := st.ticks ++ [TickTask.processQ Phase.frameworkBeforeBoot] }
    else st
  | .tick =>
    match st.ticks with
    | [] => st
    | t :: rest => runTask { st with ticks := rest } t
  | .fireDone i =>
    match st.stored.get? i with
    | none => st
    | some (p, k, tid) => runStoredDone { st with stored := st.stored.eraseIdx i } p k tid
  | .fireTimer tid =>
    if tid ∈ st.timers then
      { st with
        timers := st.timers.erase tid,
        trace := st.trace ++ [Ev.warned tid, Ev.clearedIntervalCall tid] }
    else st
  | .regDone => doneRegister st
  | .callBootstrap regs => bootstrapFn regs st

/-- The idle state: a fresh `LoaderService` instance before `bootstrap`. -/
def idleState : SchedState where
  queues := fun _ => []
  subscribed := fun _ => false
  completedSubj := fun _ => false
  ticks := []
  stored := []
  timers := []
  nextTimer := 0
  warmupArmed := false
  warmupDone := false
  registered := []
  nextCb := 0
  finishCompleted := false
  isBootstrapped := false
  trace := []

/-- A run of the scheduler: `bootstrap` once on the idle instance, then an
arbitrary sequence of environment events. -/
def run (regs : List Reg) (evs : List EEvent) : SchedState :=
  evs.foldl step (bootstrapFn regs idleState)

/-! ## Trace extractors -/

/-- Keys of the `completedIt` events of phase `p`, in trace order. -/
def completedKeys (p : Phase) (tr : List Ev) : List String :=
  tr.filterMap (fun e => match e with
    | Ev.completedIt q k => if q = p then some k else none
    | _ => none)

/-- Keys of the `started` events of phase `p`, in trace order. -/
def startedKeys (p : Phase) (tr : List Ev) : List String :=
  tr.filterMap (fun e => match e with
    | Ev.started q k => if q = p then some k else none
    | _ => none)

/-- Keys of a phase queue, in insertion order. -/
def keysOf (l : List Entry) : List String := l.map Prod.fst

/-- Items completed so far in phase `p`. -/
def doneCount (p : Phase) (st : SchedState) : Nat :=
  (completedKeys p st.trace).length

/-- Items started so far in phase `p`. -/
def startCount (p : Phase) (st : SchedState) : Nat :=
  (startedKeys p st.trace).length

/-- Stored completion callbacks belonging to phase `p`. -/
def storedFor (p : Phase) (st : SchedState) : List (Phase × String × Nat) :=
  st.stored.filter (fun e => e.1 = p)

/-! ## The `Autoload` decorator and its queue item model -/

/-- `AutoloadOptionsInterface` of `loader.decorator.ts`: both properties are
optional.  A `none` field models an absent property, which the object
spread `{ methodName: 'autoStart', doneCheckTimeout: 5000, ...options }`
does not override. -/
structure AutoloadOptionsInterface where
  methodName : Option String := none
  doneCheckTimeout : Option Nat := none
deriving DecidableEq, Repr

/-- `LoaderServiceQueueItemModel`: the queue item recorded in the loader
metadata (`target` represented by its name). -/
structure LoaderServiceQueueItemModel where
  type : Phase
  targetName : String
  methodName : String
  doneCheckTimeout : Nat
deriving DecidableEq, Repr

/-- The `Autoload` class decorator: read the current metadata `config`,
merge the defaults `{ methodName: 'autoStart', doneCheckTimeout: 5000 }`
with the explicitly supplied option fields, push the cast queue item, and
store the metadata back. -/
def Autoload (t : Phase) (opts : Option AutoloadOptionsInterface)
    (target : String) (config : List LoaderServiceQueueItemModel) :
    List LoaderServiceQueueItemModel :=
  let m : String := match opts with
    | none => "autoStart"
    | some o => o.methodName.getD "autoStart"
  let d : Nat := match opts with
    | none => 5000
    | some o => o.doneCheckTimeout.getD 5000
  config ++ [{ type := t, targetName := target, methodName := m,
               doneCheckTimeout := d }]

/-! ## Invariant infrastructure -/

/-- Events a run of phase `p`'s machinery may append to the trace: item
events of phase `p` itself plus timer bookkeeping. -/
def phaseEvP (p : Phase) : Ev → Prop := fun e =>
  match e with
  | Ev.started q _ => q = p
  | Ev.completedIt q _ => q = p
  | Ev.drained q => q = p
  | Ev.missingMethod q _ => q = p
  | Ev.armedTimer _ _ => True
  | Ev.clearedIntervalCall _ => True
  | _ => False

/-- Phase `p`'s machinery has been touched in any observable way. -/
def phaseBegun (p : Phase) (st : SchedState) : Prop :=
  st.subscribed p = true ∨ st.completedSubj p = true ∨
  startCount p st ≠ 0 ∨ doneCount p st ≠ 0 ∨
  storedFor p st ≠ [] ∨ TickTask.processQ p ∈ st.ticks

/-- All phases strictly earlier than `p` have drained. -/
def lowerDrained (p : Phase) (st : SchedState) : Prop :=
  ∀ q, phasePos q < phasePos p → st.completedSubj q = true

/-- Precondition under which `processQueueItem` is (re-)entered for phase
`p`: no completion callback of `p` is outstanding, starts and completions
are balanced, all earlier phases have drained, the warm-up fired, and no
`processQueue p` tick is pending. -/
def PhasePre (p : Phase) (st : SchedState) : Prop :=
  storedFor p st = [] ∧ startCount p st = doneCount p st ∧
  lowerDrained p st ∧ TickTask.processQ p ∉ st.ticks ∧
  st.warmupDone = true

/-- What running phase `p`'s synchronous machinery can change: everything
outside phase `p` (and outside the timer/trace bookkeeping) is untouched,
the trace only grows with phase-`p` events, `stored` only grows with
phase-`p` callbacks, and the tick queue gains at most the next-phase task,
exactly when phase `p`'s subject completes. -/
structure PhaseFrame (p : Phase) (st r : SchedState) : Prop where
  subsEq : r.subscribed = st.subscribed
  queuesEq : ∀ q, q ≠ p → r.queues q = st.queues q
  flagEq : ∀ q, q ≠ p → r.completedSubj q = st.completedSubj q
  flagMono : st.completedSubj p = true → r.completedSubj p = true
  storedEq : ∃ σ, r.stored = st.stored ++ σ ∧ ∀ e ∈ σ, e.1 = p
  ticksEq : r.ticks = st.ticks ++
    (if st.completedSubj p = false ∧ r.completedSubj p = true
     then [nextTaskOf p] else [])
  timersEq : ∃ τ, r.timers = st.timers ++ τ
  warmA : r.warmupArmed = st.warmupArmed
  warmD : r.warmupDone = st.warmupDone
  regEq : r.registered = st.registered
  cbEq : r.nextCb = st.nextCb
  finEq : r.finishCompleted = st.finishCompleted
  bootEq : r.isBootstrapped = st.isBootstrapped
  traceEq : ∃ Δ, r.trace = st.trace ++ Δ ∧ ∀ e ∈ Δ, phaseEvP p e

/-- The core of the run invariant, relative to the registration list
`regs`. -/
structure SchedInvCore (regs : List Reg) (st : SchedState) : Prop where
  boot : st.isBootstrapped = true
  dropEq : ∀ p, st.queues p = (initQueues regs p).drop (doneCount p st)
  compKeys : ∀ p, completedKeys p st.trace =
    (keysOf (initQueues regs p)).take (doneCount p st)
  startKeys : ∀ p, startedKeys p st.trace =
    (keysOf (initQueues regs p)).take (startCount p st)
  startBound : ∀ p, startCount p st = doneCount p st ∨
    startCount p st = doneCount p st + 1
  storedShape : ∀ e ∈ st.stored,
    startCount e.1 st = doneCount e.1 st + 1 ∧
    ∃ r, (st.queues e.1).head? = some (e.2.1, r)
  storedOne : ∀ p, (storedFor p st).length ≤ 1
  drainedCount : ∀ p, st.trace.count (Ev.drained p) =
    (if st.completedSubj p then 1 else 0)
  drainedEmpty : ∀ p, st.completedSubj p = true → st.queues p = []
  gating : ∀ p, phaseBegun p st → lowerDrained p st
  ticketInv : ∀ p, TickTask.processQ p ∈ st.ticks →
    st.subscribed p = false ∧ storedFor p st = [] ∧
    startCount p st = 0 ∧ doneCount p st = 0 ∧ st.completedSubj p = false
  tickCount : ∀ p, st.ticks.count (TickTask.processQ p) ≤ 1
  warmGate : st.warmupDone = false →
    ¬ phaseBegun Phase.frameworkBeforeBoot st
  regLt : ∀ c ∈ st.registered, c < st.nextCb
  finInv : st.finishCompleted = true →
    ∀ c ∈ st.registered, Ev.invoked c [true] ∈ st.trace
  invArgs : ∀ c a, Ev.invoked c a ∈ st.trace → c ∈ st.registered ∧ a = [true]

/-- The master run invariant: the core plus the fact that a phase queue
that ever held an item and is now empty has fired its drained event.
(The core alone holds at the instant inside `doneCallback` between the
deletion that empties a queue and the `complete()` call that follows.) -/
structure SchedInv (regs : List Reg) (st : SchedState)
    extends SchedInvCore regs st : Prop where
  emptyDrained : ∀ p, st.queues p = [] → initQueues regs p ≠ [] →
    st.completedSubj p = true

/-! ## Frame lemmas: what phase-`p` machinery can touch -/

theorem frame_refl (p : Phase) (st : SchedState) : PhaseFrame p st st := by
  refine ⟨rfl, fun _ _ => rfl, fun _ _ => rfl, fun h => h, ⟨[], by simp⟩, ?_,
    ⟨[], by simp⟩, rfl, rfl, rfl, rfl, rfl, rfl, ⟨[], by simp, by simp⟩⟩
  cases h : st.completedSubj p <;> simp [h]

theorem frame_trans {p : Phase} {s1 s2 s3 : SchedState}
    (f : PhaseFrame p s1 s2) (g : PhaseFrame p s2 s3) : PhaseFrame p s1 s3 := by
  obtain ⟨σ1, hσ1, hσ1p⟩ := f.storedEq
  obtain ⟨σ2, hσ2, hσ2p⟩ := g.storedEq
  obtain ⟨τ1, hτ1⟩ := f.timersEq
  obtain ⟨τ2, hτ2⟩ := g.timersEq
  obtain ⟨Δ1, hΔ1, hΔ1p⟩ := f.traceEq
  obtain ⟨Δ2, hΔ2, hΔ2p⟩ := g.traceEq
  refine ⟨g.subsEq.trans f.subsEq,
    fun q hq => (g.queuesEq q hq).trans (f.queuesEq q hq),
    fun q hq => (g.flagEq q hq).trans (f.flagEq q hq),
    fun h => g.flagMono (f.flagMono h),
    ⟨σ1 ++ σ2, by simp [hσ2, hσ1], by
      intro e he; rcases List.mem_append.mp he with h | h
      exacts [hσ1p e h, hσ2p e h]⟩, ?_,
    ⟨τ1 ++ τ2, by simp [hτ2, hτ1]⟩,
    g.warmA.trans f.warmA, g.warmD.trans f.warmD,
    g.regEq.trans f.regEq, g.cbEq.trans f.cbEq,
    g.finEq.trans f.finEq, g.bootEq.trans f.bootEq,
    ⟨Δ1 ++ Δ2, by simp [hΔ2, hΔ1], by
      intro e he; rcases List.mem_append.mp he with h | h
      exacts [hΔ1p e h, hΔ2p e h]⟩⟩
  have h1 := f.ticksEq
  have h2 := g.ticksEq
  cases ha : s1.completedSubj p with
  | true =>
    have hb := f.flagMono ha
    have hc := g.flagMono hb
    simp [ha, hb] at h1 h2
    simp [ha, h2, h1]
  | false =>
    cases hb : s2.completedSubj p with
    | true =>
      have hc := g.flagMono hb
      simp [ha, hb] at h1 h2
      simp [ha, hc, h2, h1]
    | false =>
      simp [ha, hb] at h1 h2
      cases hc : s3.completedSubj p with
      | true => simp [hb, hc] at h2; simp [ha, hc, h2, h1]
      | false => simp [hb, hc] at h2; simp [ha, hc, h2, h1]

theorem frame_recordClearCall (p : Phase) (st : SchedState) (t? : Option Nat) :
    PhaseFrame p st (recordClearCall st t?) := by
  cases t? with
  | none => exact frame_refl p st
  | some t =>
    refine ⟨rfl, fun _ _ => rfl, fun _ _ => rfl, fun h => h,
      ⟨[], by simp [recordClearCall]⟩, ?_,
      ⟨[], by simp [recordClearCall]⟩, rfl, rfl, rfl, rfl, rfl, rfl,
      ⟨[Ev.clearedIntervalCall t], rfl, by simp [phaseEvP]⟩⟩
    cases h : st.completedSubj p <;> simp [recordClearCall, h]

theorem frame_deleteByKey (p : Phase) (st : SchedState) (k? : Option String) :
    PhaseFrame p st (deleteByKey st p k?) := by
  cases k? with
  | none => exact frame_refl p st
  | some k =>
    refine ⟨rfl, fun q hq => by simp [deleteByKey, hq], fun _ _ => rfl,
      fun h => h, ⟨[], by simp [deleteByKey]⟩, ?_,
      ⟨[], by simp [deleteByKey]⟩, rfl, rfl, rfl, rfl, rfl,
      rfl, ⟨[Ev.completedIt p k], rfl, by simp [phaseEvP]⟩⟩
    cases h : st.completedSubj p <;> simp [deleteByKey, h]

theorem frame_completeIfEmpty (p : Phase) (st : SchedState) :
    PhaseFrame p st (completeIfEmpty st p) := by
  unfold completeIfEmpty
  by_cases h : (st.queues p).length = 0 ∧ st.completedSubj p = false
  · rw [if_pos h]
    refine ⟨rfl, fun _ _ => rfl, fun q hq => by simp [hq], fun hc => by simp,
      ⟨[], by simp⟩, by simp [h.2], ⟨[], by simp⟩, rfl, rfl, rfl, rfl, rfl,
      rfl, ⟨[Ev.drained p], rfl, by simp [phaseEvP]⟩⟩
  · rw [if_neg h]
    exact frame_refl p st

theorem frame_notifyCount (p : Phase) (st : SchedState)
    (next : SchedState → SchedState)
    (hnext : ∀ s, PhaseFrame p s (next s)) :
    PhaseFrame p st (notifyCount st p next) := by
  unfold notifyCount
  by_cases h : st.subscribed p = true ∧ st.completedSubj p = false ∧
      (st.queues p).length ≠ 0
  · rw [if_pos h]; exact hnext st
  · rw [if_neg h]; exact frame_refl p st

theorem frame_dcbCore (p : Phase) (st : SchedState) (k? : Option String)
    (t? : Option Nat) (next : SchedState → SchedState)
    (hnext : ∀ s, PhaseFrame p s (next s)) :
    PhaseFrame p st (dcbCore st p k? t? next) := by
  unfold dcbCore
  exact frame_trans (frame_trans (frame_trans
    (frame_recordClearCall p st t?)
    (frame_deleteByKey p _ k?))
    (frame_notifyCount p _ next hnext))
    (frame_completeIfEmpty p _)

theorem frame_armWatchdog (p : Phase) (st : SchedState) (k : String) (r : Reg) :
    PhaseFrame p st (armWatchdog st p k r) := by
  refine ⟨rfl, fun _ _ => rfl, fun _ _ => rfl, fun h => h,
    ⟨[], by simp [armWatchdog]⟩, ?_,
    ⟨[st.nextTimer], rfl⟩, rfl, rfl, rfl, rfl, rfl, rfl,
    ⟨[Ev.armedTimer st.nextTimer r.doneCheckTimeout, Ev.started p k], rfl,
      by simp [phaseEvP]⟩⟩
  cases h : st.completedSubj p <;> simp [armWatchdog, h]

theorem frame_pqiStep (p : Phase) (st : SchedState)
    (next : SchedState → SchedState)
    (hnext : ∀ s, PhaseFrame p s (next s)) :
    PhaseFrame p st (pqiStep st p next) := by
  unfold pqiStep
  cases hh : (st.queues p).head? with
  | none => exact frame_refl p st
  | some e =>
    obtain ⟨k, r⟩ := e
    dsimp only
    by_cases hm : r.hasMethod = false
    · rw [if_pos hm]
      refine ⟨rfl, fun _ _ => rfl, fun _ _ => rfl, fun h => h, ⟨[], by simp⟩,
        ?_, ⟨[], by simp⟩, rfl, rfl, rfl, rfl, rfl, rfl,
        ⟨[Ev.missingMethod p k], rfl, by simp [phaseEvP]⟩⟩
      cases h : st.completedSubj p <;> simp [h]
    · rw [if_neg hm]
      by_cases hs : r.sync
      · rw [if_pos hs]
        exact frame_trans (frame_armWatchdog p st k r)
          (frame_dcbCore p _ _ _ next hnext)
      · rw [if_neg hs]
        refine frame_trans (frame_armWatchdog p st k r) ?_
        refine ⟨rfl, fun _ _ => rfl, fun _ _ => rfl, fun h => h,
          ⟨[(p, k, st.nextTimer)], rfl, by simp⟩, ?_, ⟨[], by simp⟩, rfl, rfl,
          rfl, rfl, rfl, rfl, ⟨[], by simp, by simp⟩⟩
        cases h : (armWatchdog st p k r).completedSubj p <;> simp [h]

theorem frame_pqiGo (p : Phase) : ∀ (fuel : Nat) (st : SchedState),
    PhaseFrame p st (pqiGo fuel st p) := by
  intro fuel
  induction fuel with
  | zero => intro st; exact frame_pqiStep p st id (fun s => frame_refl p s)
  | succ f ih => intro st; exact frame_pqiStep p st _ (fun s => ih s)

/-! ## Trace extractor lemmas -/

theorem completedKeys_append (q : Phase) (t1 t2 : List Ev) :
    completedKeys q (t1 ++ t2) = completedKeys q t1 ++ completedKeys q t2 :=
  List.filterMap_append t1 t2 _

theorem startedKeys_append (q : Phase) (t1 t2 : List Ev) :
    startedKeys q (t1 ++ t2) = startedKeys q t1 ++ startedKeys q t2 :=
  List.filterMap_append t1 t2 _

theorem completedKeys_phaseEv {p q : Phase} (hq : q ≠ p) (Δ : List Ev)
    (hΔ : ∀ e ∈ Δ, phaseEvP p e) : completedKeys q Δ = [] := by
  apply List.filterMap_eq_nil_iff.mpr
  intro e he
  have hp := hΔ e he
  cases e
  case completedIt q' k =>
    have hq' : q' = p := hp
    subst hq'
    exact if_neg (Ne.symm hq)
  all_goals rfl

theorem startedKeys_phaseEv {p q : Phase} (hq : q ≠ p) (Δ : List Ev)
    (hΔ : ∀ e ∈ Δ, phaseEvP p e) : startedKeys q Δ = [] := by
  apply List.filterMap_eq_nil_iff.mpr
  intro e he
  have hp := hΔ e he
  cases e
  case started q' k =>
    have hq' : q' = p := hp
    subst hq'
    exact if_neg (Ne.symm hq)
  all_goals rfl

theorem drainedCount_phaseEv {p q : Phase} (hq : q ≠ p) (Δ : List Ev)
    (hΔ : ∀ e ∈ Δ, phaseEvP p e) : Δ.count (Ev.drained q) = 0 := by
  apply List.count_eq_zero.mpr
  intro hmem
  have hp := hΔ _ hmem
  exact hq hp

theorem invoked_phaseEv {p : Phase} {c : Nat} {a : List Bool} :
    ∀ Δ : List Ev, (∀ e ∈ Δ, phaseEvP p e) → Ev.invoked c a ∉ Δ := by
  intro Δ hΔ hmem
  exact hΔ _ hmem

theorem clearedTimeout_phaseEv {p : Phase} {t : Nat} :
    ∀ Δ : List Ev, (∀ e ∈ Δ, phaseEvP p e) → Ev.clearedTimeoutCall t ∉ Δ := by
  intro Δ hΔ hmem
  exact hΔ _ hmem

theorem mem_completedKeys {q : Phase} {k : String} {tr : List Ev} :
    k ∈ completedKeys q tr ↔ Ev.completedIt q k ∈ tr := by
  constructor
  · intro h
    obtain ⟨e, he, hfe⟩ := List.mem_filterMap.mp h
    cases e <;> simp at hfe
    obtain ⟨h1, h2⟩ := hfe
    subst h1; subst h2
    exact he
  · intro h
    exact List.mem_filterMap.mpr ⟨Ev.completedIt q k, h, by simp⟩

theorem mem_startedKeys {q : Phase} {k : String} {tr : List Ev} :
    k ∈ startedKeys q tr ↔ Ev.started q k ∈ tr := by
  constructor
  · intro h
    obtain ⟨e, he, hfe⟩ := List.mem_filterMap.mp h
    cases e <;> simp at hfe
    obtain ⟨h1, h2⟩ := hfe
    subst h1; subst h2
    exact he
  · intro h
    exact List.mem_filterMap.mpr ⟨Ev.started q k, h, by simp⟩

/-! ## Queue key bookkeeping -/

theorem keysOf_mapSet (m : List Entry) (k : String) (v : Reg) :
    keysOf (mapSet m k v) =
    if m.any (fun e => e.1 = k) then keysOf m else keysOf m ++ [k] := by
  unfold mapSet keysOf
  by_cases h : m.any (fun e => e.1 = k)
  · rw [if_pos h, if_pos h, List.map_map]
    apply List.map_congr_left
    intro e _
    by_cases hek : e.1 = k <;> simp [hek]
  · rw [if_neg h, if_neg h]
    simp

theorem nodup_keys_mapSet (m : List Entry) (k : String) (v : Reg)
    (h : (keysOf m).Nodup) : (keysOf (mapSet m k v)).Nodup := by
  rw [keysOf_mapSet]
  by_cases ha : m.any (fun e => e.1 = k)
  · rwa [if_pos ha]
  · rw [if_neg ha]
    have hk : k ∉ keysOf m := by
      intro hmem
      obtain ⟨e, he, hek⟩ := List.mem_map.mp hmem
      exact ha (List.any_eq_true.mpr ⟨e, he, by simp [hek]⟩)
    exact List.nodup_append.mpr ⟨h, List.nodup_singleton k,
      fun a hal har => hk ((List.mem_singleton.mp har) ▸ hal)⟩

theorem nodup_keys_foldl (regs : List Reg) :
    ∀ qs : Phase → List Entry, (∀ p, (keysOf (qs p)).Nodup) →
    ∀ p, (keysOf ((regs.foldl addReg qs) p)).Nodup := by
  induction regs with
  | nil => intro qs h p; exact h p
  | cons r regs ih =>
    intro qs h p
    apply ih (addReg qs r) _ p
    intro q
    unfold addReg
    by_cases hq : q = r.type
    · rw [if_pos hq]; exact nodup_keys_mapSet _ _ _ (h r.type)
    · rw [if_neg hq]; exact h q

theorem nodup_keys_initQueues (regs : List Reg) (p : Phase) :
    (keysOf (initQueues regs p)).Nodup :=
  nodup_keys_foldl regs _ (fun _ => by simp [keysOf]) p

theorem getElem?_of_head_drop {l : List Entry} {n : Nat} {x : Entry}
    (hh : (l.drop n).head? = some x) : l[n]? = some x := by
  rw [← List.head?_drop]; exact hh

theorem keysOf_getElem? {l : List Entry} {n : Nat} {k : String} {r : Reg}
    (h : l[n]? = some (k, r)) : (keysOf l)[n]? = some k := by
  unfold keysOf
  rw [List.getElem?_map, h]
  rfl

theorem take_succ_keysOf {l : List Entry} {n : Nat} {k : String} {r : Reg}
    (h : l[n]? = some (k, r)) :
    (keysOf l).take (n + 1) = (keysOf l).take n ++ [k] := by
  rw [List.take_succ, keysOf_getElem? h]
  rfl

theorem drop_eq_cons_of_head? {l : List Entry} {n : Nat} {x : Entry}
    (hh : (l.drop n).head? = some x) : l.drop n = x :: l.drop (n + 1) := by
  cases hd : l.drop n with
  | nil => rw [hd] at hh; simp at hh
  | cons a t =>
    rw [hd] at hh
    simp only [List.head?_cons, Option.some.injEq] at hh
    have ht : t = l.drop (n + 1) := by
      have htd := List.tail_drop l n
      rw [hd] at htd
      simpa using htd
    rw [hh, ht]

theorem filter_head_drop {l : List Entry} {n : Nat} {k : String} {r : Reg}
    (hnodup : (keysOf l).Nodup) (hh : (l.drop n).head? = some (k, r)) :
    (l.drop n).filter (fun e => e.1 ≠ k) = l.drop (n + 1) := by
  rw [drop_eq_cons_of_head? hh, List.filter_cons]
  simp only [ne_eq, not_true_eq_false, decide_False, Bool.false_eq_true,
    if_false]
  apply List.filter_eq_self.mpr
  intro e he
  have hkeys : keysOf (l.drop n) = k :: keysOf (l.drop (n + 1)) := by
    rw [drop_eq_cons_of_head? hh]; rfl
  have hnd : (keysOf (l.drop n)).Nodup := by
    have : keysOf (l.drop n) = (keysOf l).drop n := List.map_drop _ _ _
    rw [this]
    exact hnodup.sublist (List.drop_sublist n _)
  rw [hkeys] at hnd
  have hknot : k ∉ keysOf (l.drop (n + 1)) := (List.nodup_cons.mp hnd).1
  have : e.1 ≠ k := by
    intro hek
    exact hknot (hek ▸ List.mem_map.mpr ⟨e, he, rfl⟩)
  simp [this]

theorem length_pos_of_head? {l : List Entry} {n : Nat} {x : Entry}
    (hh : (l.drop n).head? = some x) : n < l.length := by
  have := getElem?_of_head_drop hh
  exact (List.getElem?_eq_some.mp this).1

/-! ## Phase order facts -/

theorem phasePos_inj : ∀ p q : Phase, phasePos p = phasePos q → p = q := by
  intro p q
  cases p <;> cases q <;> simp [phasePos]

theorem nextTaskOf_spec : ∀ p : Phase,
    nextTaskOf p = TickTask.finishBoot ∨
    ∃ q, nextTaskOf p = TickTask.processQ q ∧ phasePos q = phasePos p + 1 := by
  intro p
  cases p
  · exact Or.inr ⟨Phase.before, rfl, rfl⟩
  · exact Or.inr ⟨Phase.after, rfl, rfl⟩
  · exact Or.inr ⟨Phase.frameworkAfterBoot, rfl, rfl⟩
  · exact Or.inl rfl

theorem nextTaskOf_ne_self : ∀ p : Phase,
    nextTaskOf p ≠ TickTask.processQ p := by
  intro p
  cases p <;> simp [nextTaskOf]

theorem nextTaskOf_ne_first : ∀ p : Phase,
    nextTaskOf p ≠ TickTask.processQ Phase.frameworkBeforeBoot := by
  intro p
  cases p <;> simp [nextTaskOf]

theorem not_phaseBegun_iff (p : Phase) (st : SchedState) :
    ¬ phaseBegun p st ↔
    st.subscribed p = false ∧ st.completedSubj p = false ∧
    startCount p st = 0 ∧ doneCount p st = 0 ∧ storedFor p st = [] ∧
    TickTask.processQ p ∉ st.ticks := by
  unfold phaseBegun
  push_neg
  simp [Bool.not_eq_true]

theorem storedFor_nil_iff (p : Phase) (st : SchedState) :
    storedFor p st = [] ↔ ∀ e ∈ st.stored, e.1 ≠ p := by
  unfold storedFor
  rw [List.filter_eq_nil_iff]
  constructor
  · intro h e he hep
    exact h e he (by simp [hep])
  · intro h e he
    simp [h e he]

/-! ## Extractor simp lemmas -/

attribute [simp] completedKeys_append startedKeys_append

theorem completedKeys_nil (q : Phase) : completedKeys q [] = [] := rfl

theorem startedKeys_nil (q : Phase) : startedKeys q [] = [] := rfl

attribute [simp] completedKeys_nil startedKeys_nil

theorem completedKeys_cons_completedIt (q p : Phase) (k : String)
    (tr : List Ev) : completedKeys q (Ev.completedIt p k :: tr) =
    if p = q then k :: completedKeys q tr else completedKeys q tr := by
  by_cases h : p = q <;> simp [completedKeys, List.filterMap_cons, h]

theorem startedKeys_cons_started (q p : Phase) (k : String) (tr : List Ev) :
    startedKeys q (Ev.started p k :: tr) =
    if p = q then k :: startedKeys q tr else startedKeys q tr := by
  by_cases h : p = q <;> simp [startedKeys, List.filterMap_cons, h]

attribute [simp] completedKeys_cons_completedIt startedKeys_cons_started

theorem completedKeys_cons_other (q : Phase) (e : Ev) (tr : List Ev)
    (h : ∀ p k, e ≠ Ev.completedIt p k) :
    completedKeys q (e :: tr) = completedKeys q tr := by
  cases e
  case completedIt p k => exact absurd rfl (h p k)
  all_goals rfl

theorem startedKeys_cons_other (q : Phase) (e : Ev) (tr : List Ev)
    (h : ∀ p k, e ≠ Ev.started p k) :
    startedKeys q (e :: tr) = startedKeys q tr := by
  cases e
  case started p k => exact absurd rfl (h p k)
  all_goals rfl

theorem completedKeys_cons_started' (q p : Phase) (k : String) (tr : List Ev) :
    completedKeys q (Ev.started p k :: tr) = completedKeys q tr := rfl

theorem completedKeys_cons_drained (q p : Phase) (tr : List Ev) :
    completedKeys q (Ev.drained p :: tr) = completedKeys q tr := rfl

theorem completedKeys_cons_missing (q p : Phase) (k : String) (tr : List Ev) :
    completedKeys q (Ev.missingMethod p k :: tr) = completedKeys q tr := rfl

theorem completedKeys_cons_armed (q : Phase) (t d : Nat) (tr : List Ev) :
    completedKeys q (Ev.armedTimer t d :: tr) = completedKeys q tr := rfl

theorem completedKeys_cons_clearedI (q : Phase) (t : Nat) (tr : List Ev) :
    completedKeys q (Ev.clearedIntervalCall t :: tr) = completedKeys q tr := rfl

theorem completedKeys_cons_clearedT (q : Phase) (t : Nat) (tr : List Ev) :
    completedKeys q (Ev.clearedTimeoutCall t :: tr) = completedKeys q tr := rfl

theorem completedKeys_cons_warned (q : Phase) (t : Nat) (tr : List Ev) :
    completedKeys q (Ev.warned t :: tr) = completedKeys q tr := rfl

theorem completedKeys_cons_regD (q : Phase) (c : Nat) (tr : List Ev) :
    completedKeys q (Ev.registeredDone c :: tr) = completedKeys q tr := rfl

theorem completedKeys_cons_finished (q : Phase) (tr : List Ev) :
    completedKeys q (Ev.finished :: tr) = completedKeys q tr := rfl

theorem completedKeys_cons_invoked (q : Phase) (c : Nat) (a : List Bool)
    (tr : List Ev) :
    completedKeys q (Ev.invoked c a :: tr) = completedKeys q tr := rfl

attribute [simp] completedKeys_cons_started' completedKeys_cons_drained
  completedKeys_cons_missing completedKeys_cons_armed
  completedKeys_cons_clearedI completedKeys_cons_clearedT
  completedKeys_cons_warned completedKeys_cons_regD
  completedKeys_cons_finished completedKeys_cons_invoked

theorem startedKeys_cons_completedIt' (q p : Phase) (k : String)
    (tr : List Ev) :
    startedKeys q (Ev.completedIt p k :: tr) = startedKeys q tr := rfl

theorem startedKeys_cons_drained (q p : Phase) (tr : List Ev) :
    startedKeys q (Ev.drained p :: tr) = startedKeys q tr := rfl

theorem startedKeys_cons_missing (q p : Phase) (k : String) (tr : List Ev) :
    startedKeys q (Ev.missingMethod p k :: tr) = startedKeys q tr := rfl

theorem startedKeys_cons_armed (q : Phase) (t d : Nat) (tr : List Ev) :
    startedKeys q (Ev.armedTimer t d :: tr) = startedKeys q tr := rfl

theorem startedKeys_cons_clearedI (q : Phase) (t : Nat) (tr : List Ev) :
    startedKeys q (Ev.clearedIntervalCall t :: tr) = startedKeys q tr := rfl

theorem startedKeys_cons_clearedT (q : Phase) (t : Nat) (tr : List Ev) :
    startedKeys q (Ev.clearedTimeoutCall t :: tr) = startedKeys q tr := rfl

theorem startedKeys_cons_warned (q : Phase) (t : Nat) (tr : List Ev) :
    startedKeys q (Ev.warned t :: tr) = startedKeys q tr := rfl

theorem startedKeys_cons_regD (q : Phase) (c : Nat) (tr : List Ev) :
    startedKeys q (Ev.registeredDone c :: tr) = startedKeys q tr := rfl

theorem startedKeys_cons_finished (q : Phase) (tr : List Ev) :
    startedKeys q (Ev.finished :: tr) = startedKeys q tr := rfl

theorem startedKeys_cons_invoked (q : Phase) (c : Nat) (a : List Bool)
    (tr : List Ev) :
    startedKeys q (Ev.invoked c a :: tr) = startedKeys q tr := rfl

attribute [simp] startedKeys_cons_completedIt' startedKeys_cons_drained
  startedKeys_cons_missing startedKeys_cons_armed startedKeys_cons_clearedI
  startedKeys_cons_clearedT startedKeys_cons_warned startedKeys_cons_regD
  startedKeys_cons_finished startedKeys_cons_invoked

/-! ## Invariant preservation: the drained transition -/

theorem drain_fire_inv (regs : List Reg) (p : Phase) (st : SchedState)
    (hCore : SchedInvCore regs st)
    (hED : ∀ q, q ≠ p → st.queues q = [] → initQueues regs q ≠ [] →
      st.completedSubj q = true)
    (hempty : st.queues p = [])
    (hflag : st.completedSubj p = false)
    (hlow : lowerDrained p st)
    (hticket : TickTask.processQ p ∉ st.ticks)
    (hwarm : st.warmupDone = true) :
    SchedInv regs (completeIfEmpty st p) := by
  have hcond : (st.queues p).length = 0 ∧ st.completedSubj p = false :=
    ⟨by simp [hempty], hflag⟩
  rw [completeIfEmpty, if_pos hcond]
  refine ⟨⟨?_, ?_, ?_, ?_, ?_, ?_, ?_, ?_, ?_, ?_, ?_, ?_, ?_, ?_, ?_, ?_⟩,
    ?_⟩
  -- boot
  · exact hCore.boot
  -- dropEq
  · intro q
    simpa [doneCount] using hCore.dropEq q
  -- compKeys
  · intro q
    simpa [doneCount] using hCore.compKeys q
  -- startKeys
  · intro q
    simpa [startCount] using hCore.startKeys q
  -- startBound
  · intro q
    simpa [startCount, doneCount] using hCore.startBound q
  -- storedShape
  · intro e he
    obtain ⟨h1, rr, h2⟩ := hCore.storedShape e he
    exact ⟨by simpa [startCount, doneCount] using h1, rr, h2⟩
  -- storedOne
  · intro q
    exact hCore.storedOne q
  -- drainedCount
  · intro q
    by_cases hq : q = p
    · subst hq
      have h0 := hCore.drainedCount q
      rw [hflag] at h0
      simp at h0
      simp [List.count_append, h0]
    · have hne : Ev.drained q ≠ Ev.drained p := fun hh => hq (by injection hh)
      have := hCore.drainedCount q
      simpa [List.count_append, List.count_singleton', hne, hq] using this
  -- drainedEmpty
  · intro q hq2
    by_cases hq : q = p
    · subst hq; exact hempty
    · simp only [hq, if_false] at hq2
      exact hCore.drainedEmpty q hq2
  -- gating
  · intro q hbegun
    by_cases hq : q = p
    · intro x hx
      by_cases hxp : x = p
      · simp [hxp]
      · simp only [hxp, if_false]
        exact hlow x (by rw [← hq]; exact hx)
    · have hsplit : phaseBegun q st ∨ TickTask.processQ q = nextTaskOf p := by
        rcases hbegun with h | h | h | h | h | h
        · exact Or.inl (Or.inl h)
        · simp only [hq, if_false] at h
          exact Or.inl (Or.inr <| Or.inl h)
        · refine Or.inl (Or.inr <| Or.inr (Or.inl ?_))
          simpa [startCount] using h
        · refine Or.inl (Or.inr <| Or.inr (Or.inr <| Or.inl ?_))
          simpa [doneCount] using h
        · exact Or.inl (Or.inr <| Or.inr (Or.inr <| Or.inr (Or.inl h)))
        · rcases List.mem_append.mp h with h' | h'
          · exact Or.inl (Or.inr <| Or.inr (Or.inr <| Or.inr (Or.inr h')))
          · exact Or.inr (List.mem_singleton.mp h')
      rcases hsplit with hb | htask
      · have hl := hCore.gating q hb
        intro x hx
        by_cases hxp : x = p
        · simp [hxp]
        · simp only [hxp, if_false]
          exact hl x hx
      · rcases nextTaskOf_spec p with hfin | ⟨q', hq', hpos⟩
        · rw [hfin] at htask; exact absurd htask (by simp)
        · rw [hq'] at htask
          have hqq : q = q' := by injection htask
          subst hqq
          intro x hx
          rw [hpos] at hx
          by_cases hxp : x = p
          · simp [hxp]
          · simp only [hxp, if_false]
            have hxlt : phasePos x < phasePos p := by
              rcases Nat.lt_succ_iff_lt_or_eq.mp hx with h' | h'
              · exact h'
              · exact absurd (phasePos_inj x p h') hxp
            exact hlow x hxlt
  -- ticketInv
  · intro q hmem
    rcases List.mem_append.mp hmem with hm | hm
    · have hq : q ≠ p := fun hh => hticket (hh ▸ hm)
      obtain ⟨h1, h2, h3, h4, h5⟩ := hCore.ticketInv q hm
      refine ⟨h1, h2, by simpa [startCount] using h3,
        by simpa [doneCount] using h4, by simp [hq, h5]⟩
    · have htask := List.mem_singleton.mp hm
      rcases nextTaskOf_spec p with hfin | ⟨q', hq', hpos⟩
      · rw [hfin] at htask; exact absurd htask (by simp)
      · rw [hq'] at htask
        have hqq : q = q' := by injection htask
        subst hqq
        have hqp : q ≠ p := by
          intro hh
          rw [hh] at hpos
          omega
        have hnb : ¬ phaseBegun q st := by
          intro hb
          have := hCore.gating q hb p (by omega)
          rw [this] at hflag
          exact absurd hflag (by simp)
        rw [not_phaseBegun_iff] at hnb
        obtain ⟨h1, h2, h3, h4, h5, _⟩ := hnb
        refine ⟨h1, h5, by simpa [startCount] using h3,
          by simpa [doneCount] using h4, by simp [hqp, h2]⟩
  -- tickCount
  · intro q
    rcases nextTaskOf_spec p with hfin | ⟨q', hq', hpos⟩
    · rw [hfin]
      have : (TickTask.processQ q) ≠ TickTask.finishBoot := by simp
      simpa [List.count_append, List.count_singleton', this] using
        hCore.tickCount q
    · rw [hq']
      by_cases hqq : q = q'
      · subst hqq
        have hqp : q ≠ p := by
          intro hh
          rw [hh] at hpos
          omega
        have hnb : ¬ phaseBegun q st := by
          intro hb
          have := hCore.gating q hb p (by omega)
          rw [this] at hflag
          exact absurd hflag (by simp)
        rw [not_phaseBegun_iff] at hnb
        have hnmem := hnb.2.2.2.2.2
        have h0 : st.ticks.count (TickTask.processQ q) = 0 :=
          List.count_eq_zero.mpr hnmem
        simp [List.count_append, List.count_singleton', h0]
      · have hne : TickTask.processQ q ≠ TickTask.processQ q' :=
          fun hh => hqq (by injection hh)
        simpa [List.count_append, List.count_singleton', hne] using
          hCore.tickCount q
  -- warmGate
  · intro h
    exact absurd h (by simp [hwarm])
  -- regLt
  · exact hCore.regLt
  -- finInv
  · intro hf c hc
    exact List.mem_append_left _ (hCore.finInv hf c hc)
  -- invArgs
  · intro c a hmem
    rcases List.mem_append.mp hmem with hm | hm
    · exact hCore.invArgs c a hm
    · simp at hm
  -- emptyDrained
  · intro q hq1 hq2
    by_cases hq : q = p
    · simp [hq]
    · simp only [hq, if_false]
      exact hED q hq hq1 hq2

/-! ## Invariant preservation: the completion (delete) transition -/

theorem dcb_s2_eq (st : SchedState) (p : Phase) (k : String) (tid : Nat) :
    deleteByKey (recordClearCall st (some tid)) p (some k) =
    { st with
      queues := fun q =>
        if q = p then (st.queues p).filter (fun e => e.1 ≠ k)
        else st.queues q,
      trace := st.trace ++ [Ev.clearedIntervalCall tid,
                            Ev.completedIt p k] } := by
  simp [recordClearCall, deleteByKey]

theorem dcb_delete_core (regs : List Reg) (p : Phase) (st : SchedState)
    (k : String) (r0 : Reg) (tid : Nat)
    (hInv : SchedInv regs st)
    (hhead : (st.queues p).head? = some (k, r0))
    (hstored : storedFor p st = [])
    (hcnt : startCount p st = doneCount p st + 1)
    (hlow : lowerDrained p st)
    (hticket : TickTask.processQ p ∉ st.ticks)
    (hwarm : st.warmupDone = true) :
    SchedInvCore regs
      (deleteByKey (recordClearCall st (some tid)) p (some k)) := by
  rw [dcb_s2_eq]
  set s2 : SchedState := { st with
      queues := fun q =>
        if q = p then (st.queues p).filter (fun e => e.1 ≠ k)
        else st.queues q,
      trace := st.trace ++ [Ev.clearedIntervalCall tid,
                            Ev.completedIt p k] } with hs2
  have hq0 := hInv.dropEq p
  have hhead' : ((initQueues regs p).drop (doneCount p st)).head? =
      some (k, r0) := by rw [← hq0]; exact hhead
  have hget := getElem?_of_head_drop hhead'
  have hn : doneCount p st < (initQueues regs p).length :=
    length_pos_of_head? hhead'
  have hfilter : ((initQueues regs p).drop (doneCount p st)).filter
      (fun e => e.1 ≠ k) = (initQueues regs p).drop (doneCount p st + 1) :=
    filter_head_drop (nodup_keys_initQueues regs p) hhead'
  have hkeys : (keysOf (initQueues regs p)).take (doneCount p st + 1) =
      (keysOf (initQueues regs p)).take (doneCount p st) ++ [k] :=
    take_succ_keysOf hget
  have hflagp : st.completedSubj p = false := by
    cases hfp : st.completedSubj p with
    | false => rfl
    | true =>
      have := hInv.drainedEmpty p hfp
      rw [this] at hhead
      simp at hhead
  have hnotp := (storedFor_nil_iff p st).mp hstored
  -- component equations of s2
  have htr2 : s2.trace = st.trace ++ [Ev.clearedIntervalCall tid,
      Ev.completedIt p k] := by rw [hs2]
  have hfl2 : s2.completedSubj = st.completedSubj := by rw [hs2]
  have hsub2 : s2.subscribed = st.subscribed := by rw [hs2]
  have hstored2 : s2.stored = st.stored := by rw [hs2]
  have hticks2 : s2.ticks = st.ticks := by rw [hs2]
  have hwd2 : s2.warmupDone = st.warmupDone := by rw [hs2]
  have hreg2 : s2.registered = st.registered := by rw [hs2]
  have hcb2 : s2.nextCb = st.nextCb := by rw [hs2]
  have hfin2 : s2.finishCompleted = st.finishCompleted := by rw [hs2]
  have hboot2 : s2.isBootstrapped = st.isBootstrapped := by rw [hs2]
  have hqp2 : s2.queues p = (initQueues regs p).drop (doneCount p st + 1) := by
    rw [hs2]
    show (if p = p then (st.queues p).filter (fun e => e.1 ≠ k)
      else st.queues p) = _
    rw [if_pos rfl, hq0, hfilter]
  have hqo2 : ∀ q, q ≠ p → s2.queues q = st.queues q := by
    intro q hq
    rw [hs2]
    show (if q = p then _ else st.queues q) = _
    rw [if_neg hq]
  have hdcp2 : doneCount p s2 = doneCount p st + 1 := by
    rw [doneCount, htr2]
    simp [doneCount]
  have hdco2 : ∀ q, q ≠ p → doneCount q s2 = doneCount q st := by
    intro q hq
    rw [doneCount, htr2]
    simp [doneCount, Ne.symm hq]
  have hsc2 : ∀ q, startCount q s2 = startCount q st := by
    intro q
    rw [startCount, htr2]
    simp [startCount]
  have hck2 : completedKeys p s2.trace = completedKeys p st.trace ++ [k] := by
    rw [htr2]; simp
  have hcko2 : ∀ q, q ≠ p → completedKeys q s2.trace =
      completedKeys q st.trace := by
    intro q hq
    rw [htr2]; simp [Ne.symm hq]
  have hsk2 : ∀ q, startedKeys q s2.trace = startedKeys q st.trace := by
    intro q
    rw [htr2]; simp
  have hstf2 : ∀ q, storedFor q s2 = storedFor q st := by
    intro q
    rw [storedFor, hstored2]; rfl
  refine ⟨hboot2 ▸ hInv.boot, ?_, ?_, ?_, ?_, ?_, ?_, ?_, ?_, ?_, ?_, ?_, ?_,
    ?_, ?_, ?_⟩
  -- dropEq
  · intro q
    by_cases hq : q = p
    · subst hq
      rw [hqp2, hdcp2]
    · rw [hqo2 q hq, hdco2 q hq]
      exact hInv.dropEq q
  -- compKeys
  · intro q
    by_cases hq : q = p
    · subst hq
      rw [hck2, hdcp2, hkeys, hInv.compKeys q]
    · rw [hcko2 q hq, hdco2 q hq]
      exact hInv.compKeys q
  -- startKeys
  · intro q
    rw [hsk2 q, hsc2 q]
    exact hInv.startKeys q
  -- startBound
  · intro q
    by_cases hq : q = p
    · subst hq
      left
      rw [hsc2 q, hdcp2, hcnt]
    · rw [hsc2 q, hdco2 q hq]
      exact hInv.startBound q
  -- storedShape
  · intro e he
    rw [hstored2] at he
    have hep : e.1 ≠ p := hnotp e he
    obtain ⟨h1, rr, h2⟩ := hInv.storedShape e he
    refine ⟨by rw [hsc2, hdco2 e.1 hep]; exact h1, rr, ?_⟩
    rw [hqo2 e.1 hep]
    exact h2
  -- storedOne
  · intro q
    rw [hstf2 q]
    exact hInv.storedOne q
  -- drainedCount
  · intro q
    have h1 : Ev.drained q ≠ Ev.clearedIntervalCall tid := by simp
    have h2 : Ev.drained q ≠ Ev.completedIt p k := by simp
    rw [htr2, hfl2]
    simpa [List.count_append, List.count_cons, h1, h2] using
      hInv.drainedCount q
  -- drainedEmpty
  · intro q hfq
    rw [hfl2] at hfq
    by_cases hq : q = p
    · subst hq
      rw [hflagp] at hfq
      simp at hfq
    · rw [hqo2 q hq]
      exact hInv.drainedEmpty q hfq
  -- gating
  · intro q hbegun
    have hlower : lowerDrained q st → lowerDrained q s2 := by
      intro h x hx
      rw [hfl2]
      exact h x hx
    by_cases hq : q = p
    · subst hq
      exact hlower hlow
    · apply hlower
      apply hInv.gating q
      rcases hbegun with h | h | h | h | h | h
      · exact Or.inl (hsub2 ▸ h)
      · exact Or.inr <| Or.inl (hfl2 ▸ h)
      · exact Or.inr <| Or.inr (Or.inl (by rwa [hsc2 q] at h))
      · exact Or.inr <| Or.inr (Or.inr <| Or.inl (by rwa [hdco2 q hq] at h))
      · exact Or.inr (Or.inr (Or.inr (Or.inr (Or.inl
          (by rwa [hstf2 q] at h)))))
      · exact Or.inr (Or.inr (Or.inr (Or.inr (Or.inr
          (by rwa [hticks2] at h)))))
  -- ticketInv
  · intro q hmem
    rw [hticks2] at hmem
    have hq : q ≠ p := fun hh => hticket (hh ▸ hmem)
    obtain ⟨h1, h2, h3, h4, h5⟩ := hInv.ticketInv q hmem
    refine ⟨hsub2 ▸ h1, by rw [hstf2 q]; exact h2, by rw [hsc2 q]; exact h3,
      by rw [hdco2 q hq]; exact h4, by rw [hfl2]; exact h5⟩
  -- tickCount
  · intro q
    rw [hticks2]
    exact hInv.tickCount q
  -- warmGate
  · intro h
    rw [hwd2] at h
    exact absurd h (by simp [hwarm])
  -- regLt
  · rw [hreg2, hcb2]
    exact hInv.regLt
  -- finInv
  · intro hf c hc
    rw [hfin2] at hf
    rw [hreg2] at hc
    rw [htr2]
    exact List.mem_append_left _ (hInv.finInv hf c hc)
  -- invArgs
  · intro c a hmem
    rw [htr2] at hmem
    rw [hreg2]
    rcases List.mem_append.mp hmem with hm | hm
    · exact hInv.invArgs c a hm
    · simp at hm

theorem dcb_inv_some (regs : List Reg) (p : Phase)
    (next : SchedState → SchedState)
    (hnext : ∀ s, SchedInv regs s → PhasePre p s → SchedInv regs (next s))
    (st : SchedState) (k : String) (r0 : Reg) (tid : Nat)
    (hInv : SchedInv regs st)
    (hhead : (st.queues p).head? = some (k, r0))
    (hstored : storedFor p st = [])
    (hcnt : startCount p st = doneCount p st + 1)
    (hlow : lowerDrained p st)
    (hticket : TickTask.processQ p ∉ st.ticks)
    (hwarm : st.warmupDone = true) :
    SchedInv regs (dcbCore st p (some k) (some tid) next) := by
  have hcore := dcb_delete_core regs p st k r0 tid hInv hhead hstored hcnt
    hlow hticket hwarm
  unfold dcbCore
  set s2 := deleteByKey (recordClearCall st (some tid)) p (some k) with hs2def
  have hs2eq := dcb_s2_eq st p k tid
  have hq0 := hInv.dropEq p
  have hhead' : ((initQueues regs p).drop (doneCount p st)).head? =
      some (k, r0) := by rw [← hq0]; exact hhead
  have hn : doneCount p st < (initQueues regs p).length :=
    length_pos_of_head? hhead'
  have hfilter : ((initQueues regs p).drop (doneCount p st)).filter
      (fun e => e.1 ≠ k) = (initQueues regs p).drop (doneCount p st + 1) :=
    filter_head_drop (nodup_keys_initQueues regs p) hhead'
  have htr2 : s2.trace = st.trace ++ [Ev.clearedIntervalCall tid,
      Ev.completedIt p k] := by rw [hs2def, hs2eq]
  have hflags2 : s2.completedSubj = st.completedSubj := by rw [hs2def, hs2eq]
  have hsub2 : s2.subscribed = st.subscribed := by rw [hs2def, hs2eq]
  have hticks2 : s2.ticks = st.ticks := by rw [hs2def, hs2eq]
  have hstored2 : s2.stored = st.stored := by rw [hs2def, hs2eq]
  have hwd2 : s2.warmupDone = st.warmupDone := by rw [hs2def, hs2eq]
  have hqp2 : s2.queues p = (initQueues regs p).drop (doneCount p st + 1) := by
    rw [hs2def, hs2eq]
    show (if p = p then (st.queues p).filter (fun e => e.1 ≠ k)
      else st.queues p) = _
    rw [if_pos rfl, hq0, hfilter]
  have hqo2 : ∀ q, q ≠ p → s2.queues q = st.queues q := by
    intro q hq
    rw [hs2def, hs2eq]
    show (if q = p then _ else st.queues q) = _
    rw [if_neg hq]
  have hdcp2 : doneCount p s2 = doneCount p st + 1 := by
    rw [doneCount, htr2]
    simp [doneCount]
  have hscp2 : startCount p s2 = startCount p st := by
    rw [startCount, htr2]
    simp [startCount]
  have hflagp : st.completedSubj p = false := by
    cases hfp : st.completedSubj p with
    | false => rfl
    | true =>
      have := hInv.drainedEmpty p hfp
      rw [this] at hhead
      simp at hhead
  have hflagp2 : s2.completedSubj p = false := by rw [hflags2]; exact hflagp
  have hED2 : ∀ q, q ≠ p → s2.queues q = [] → initQueues regs q ≠ [] →
      s2.completedSubj q = true := by
    intro q hq h1 h2
    rw [hflags2]
    exact hInv.emptyDrained q (by rw [← hqo2 q hq]; exact h1) h2
  have hlow2 : lowerDrained p s2 := by
    intro x hx
    rw [hflags2]
    exact hlow x hx
  have hticket2 : TickTask.processQ p ∉ s2.ticks := by
    rw [hticks2]; exact hticket
  have hwarm2 : s2.warmupDone = true := by rw [hwd2]; exact hwarm
  have hstf2 : storedFor p s2 = [] := by
    rw [storedFor, hstored2]
    exact hstored
  have hPre2 : PhasePre p s2 := by
    refine ⟨hstf2, ?_, hlow2, hticket2, hwarm2⟩
    rw [hscp2, hdcp2, hcnt]
  by_cases hemp : (s2.queues p).length = 0
  · have hnot : notifyCount s2 p next = s2 := by
      unfold notifyCount
      rw [if_neg]
      rintro ⟨_, _, h3⟩
      exact h3 hemp
    rw [hnot]
    exact drain_fire_inv regs p s2 hcore hED2 (List.length_eq_zero.mp hemp)
      hflagp2 hlow2 hticket2 hwarm2
  · have hInvFull2 : SchedInv regs s2 := by
      refine ⟨hcore, ?_⟩
      intro q h1 h2
      by_cases hq : q = p
      · subst hq
        exact absurd (by rw [h1]; rfl) hemp
      · exact hED2 q hq h1 h2
    by_cases hguard : s2.subscribed p = true ∧ s2.completedSubj p = false ∧
        (s2.queues p).length ≠ 0
    · have hnot : notifyCount s2 p next = next s2 := by
        unfold notifyCount
        rw [if_pos hguard]
      rw [hnot]
      have hInv3 := hnext s2 hInvFull2 hPre2
      have hcomp : completeIfEmpty (next s2) p = next s2 := by
        unfold completeIfEmpty
        rw [if_neg]
        rintro ⟨h1, h2⟩
        have hinitne : initQueues regs p ≠ [] := by
          intro hnil
          rw [hnil] at hn
          simp at hn
        have := hInv3.emptyDrained p (List.length_eq_zero.mp h1) hinitne
        rw [this] at h2
        exact absurd h2 (by simp)
      rw [hcomp]
      exact hInv3
    · have hnot : notifyCount s2 p next = s2 := by
        unfold notifyCount
        rw [if_neg hguard]
      rw [hnot]
      have hcomp : completeIfEmpty s2 p = s2 := by
        unfold completeIfEmpty
        rw [if_neg]
        rintro ⟨h1, _⟩
        exact hemp h1
      rw [hcomp]
      exact hInvFull2

theorem phaseBegun_congr {q : Phase} (st st' : SchedState)
    (hsub : st'.subscribed q = st.subscribed q)
    (hfl : st'.completedSubj q = st.completedSubj q)
    (hstart : startCount q st' = startCount q st)
    (hdone : doneCount q st' = doneCount q st)
    (hstf : storedFor q st' = storedFor q st)
    (hticks : TickTask.processQ q ∈ st'.ticks ↔
      TickTask.processQ q ∈ st.ticks) :
    phaseBegun q st' ↔ phaseBegun q st := by
  unfold phaseBegun
  rw [hsub, hfl, hstart, hdone, hstf]
  simp only [hticks]

theorem lowerDrained_congr {q : Phase} {st st' : SchedState}
    (hfl : ∀ x, st'.completedSubj x = st.completedSubj x) :
    lowerDrained q st' ↔ lowerDrained q st := by
  constructor
  · intro h x hx
    rw [← hfl x]
    exact h x hx
  · intro h x hx
    rw [hfl x]
    exact h x hx

/-- Updating the trace with events that none of the extractors see (and
freely changing the timer bookkeeping) preserves the invariant. -/
theorem inv_inert_update (regs : List Reg) (st : SchedState)
    (hInv : SchedInv regs st) (tr' : List Ev) (T : List Nat) (N : Nat)
    (hck : ∀ q, completedKeys q tr' = completedKeys q st.trace)
    (hsk : ∀ q, startedKeys q tr' = startedKeys q st.trace)
    (hdr : ∀ q, tr'.count (Ev.drained q) = st.trace.count (Ev.drained q))
    (hmem : ∀ e ∈ st.trace, e ∈ tr')
    (hinv : ∀ c a, Ev.invoked c a ∈ tr' → Ev.invoked c a ∈ st.trace) :
    SchedInv regs { st with trace := tr', timers := T, nextTimer := N } := by
  have hdc : ∀ q, doneCount q
      ({ st with trace := tr', timers := T, nextTimer := N } : SchedState) =
      doneCount q st := by
    intro q
    show (completedKeys q tr').length = _
    rw [hck q]
    rfl
  have hsc : ∀ q, startCount q
      ({ st with trace := tr', timers := T, nextTimer := N } : SchedState) =
      startCount q st := by
    intro q
    show (startedKeys q tr').length = _
    rw [hsk q]
    rfl
  refine ⟨⟨hInv.boot, ?_, ?_, ?_, ?_, ?_, ?_, ?_, ?_, ?_, ?_, ?_, ?_, ?_, ?_,
    ?_⟩, ?_⟩
  · intro q
    rw [hdc q]
    exact hInv.dropEq q
  · intro q
    show completedKeys q tr' = _
    rw [hck q, hdc q]
    exact hInv.compKeys q
  · intro q
    show startedKeys q tr' = _
    rw [hsk q, hsc q]
    exact hInv.startKeys q
  · intro q
    rw [hsc q, hdc q]
    exact hInv.startBound q
  · intro e he
    obtain ⟨h1, rr, h2⟩ := hInv.storedShape e he
    exact ⟨by rw [hsc, hdc]; exact h1, rr, h2⟩
  · intro q
    exact hInv.storedOne q
  · intro q
    show tr'.count (Ev.drained q) = _
    rw [hdr q]
    exact hInv.drainedCount q
  · intro q hq
    exact hInv.drainedEmpty q hq
  · intro q hbegun
    have hb : phaseBegun q st := by
      rcases hbegun with h | h | h | h | h | h
      · exact Or.inl h
      · exact Or.inr <| Or.inl h
      · exact Or.inr <| Or.inr (Or.inl (by rwa [hsc q] at h))
      · exact Or.inr <| Or.inr (Or.inr <| Or.inl (by rwa [hdc q] at h))
      · exact Or.inr <| Or.inr (Or.inr <| Or.inr (Or.inl h))
      · exact Or.inr <| Or.inr (Or.inr <| Or.inr (Or.inr h))
    exact hInv.gating q hb
  · intro q hq
    obtain ⟨h1, h2, h3, h4, h5⟩ := hInv.ticketInv q hq
    exact ⟨h1, h2, by rw [hsc]; exact h3, by rw [hdc]; exact h4, h5⟩
  · intro q
    exact hInv.tickCount q
  · intro h
    have hb := hInv.warmGate h
    intro hbegun
    apply hb
    rcases hbegun with h' | h' | h' | h' | h' | h'
    · exact Or.inl h'
    · exact Or.inr <| Or.inl h'
    · exact Or.inr <| Or.inr (Or.inl (by rwa [hsc _] at h'))
    · exact Or.inr <| Or.inr (Or.inr <| Or.inl (by rwa [hdc _] at h'))
    · exact Or.inr <| Or.inr (Or.inr <| Or.inr (Or.inl h'))
    · exact Or.inr <| Or.inr (Or.inr <| Or.inr (Or.inr h'))
  · exact hInv.regLt
  · intro hf c hc
    exact hmem _ (hInv.finInv hf c hc)
  · intro c a hm
    exact hInv.invArgs c a (hinv c a hm)
  · intro q h1 h2
    exact hInv.emptyDrained q h1 h2

theorem dcb_inv_none (regs : List Reg) (p : Phase)
    (next : SchedState → SchedState) (st : SchedState)
    (hInv : SchedInv regs st) (hempty : st.queues p = [])
    (hPre : PhasePre p st) :
    SchedInv regs (dcbCore st p none none next) := by
  show SchedInv regs (completeIfEmpty (notifyCount st p next) p)
  have hnot : notifyCount st p next = st := by
    unfold notifyCount
    rw [if_neg]
    rintro ⟨_, _, h3⟩
    exact h3 (by rw [hempty]; rfl)
  rw [hnot]
  by_cases hflag : st.completedSubj p = false
  · exact drain_fire_inv regs p st hInv.toSchedInvCore
      (fun q _ => hInv.emptyDrained q) hempty hflag hPre.2.2.1 hPre.2.2.2.1
      hPre.2.2.2.2
  · have hc : completeIfEmpty st p = st := by
      unfold completeIfEmpty
      rw [if_neg]
      rintro ⟨_, h2⟩
      exact hflag h2
    rw [hc]
    exact hInv

/-! ## Invariant preservation: starting an item -/

theorem arm_startCount (st : SchedState) (p : Phase) (k : String) (r0 : Reg) :
    startCount p (armWatchdog st p k r0) = startCount p st + 1 := by
  unfold armWatchdog startCount
  simp

theorem arm_startCount_other (st : SchedState) (p q : Phase) (k : String)
    (r0 : Reg) (hq : q ≠ p) :
    startCount q (armWatchdog st p k r0) = startCount q st := by
  unfold armWatchdog startCount
  simp [Ne.symm hq]

theorem arm_doneCount (st : SchedState) (p q : Phase) (k : String) (r0 : Reg) :
    doneCount q (armWatchdog st p k r0) = doneCount q st := by
  unfold armWatchdog doneCount
  simp

theorem arm_inv (regs : List Reg) (p : Phase) (st : SchedState) (k : String)
    (r0 : Reg)
    (hInv : SchedInv regs st)
    (hhead : (st.queues p).head? = some (k, r0))
    (hstored : storedFor p st = [])
    (hcnt : startCount p st = doneCount p st)
    (hlow : lowerDrained p st)
    (hticket : TickTask.processQ p ∉ st.ticks)
    (hwarm : st.warmupDone = true) :
    SchedInv regs (armWatchdog st p k r0) := by
  have hq0 := hInv.dropEq p
  have hhead' : ((initQueues regs p).drop (doneCount p st)).head? =
      some (k, r0) := by rw [← hq0]; exact hhead
  have hget := getElem?_of_head_drop hhead'
  have hkeys : (keysOf (initQueues regs p)).take (doneCount p st + 1) =
      (keysOf (initQueues regs p)).take (doneCount p st) ++ [k] :=
    take_succ_keysOf hget
  have hskp : startedKeys p (armWatchdog st p k r0).trace =
      startedKeys p st.trace ++ [k] := by
    unfold armWatchdog
    simp
  have hsko : ∀ q, q ≠ p → startedKeys q (armWatchdog st p k r0).trace =
      startedKeys q st.trace := by
    intro q hq
    unfold armWatchdog
    simp [Ne.symm hq]
  have hck : ∀ q, completedKeys q (armWatchdog st p k r0).trace =
      completedKeys q st.trace := by
    intro q
    unfold armWatchdog
    simp
  have hnotp := (storedFor_nil_iff p st).mp hstored
  refine ⟨⟨hInv.boot, ?_, ?_, ?_, ?_, ?_, ?_, ?_, ?_, ?_, ?_, ?_, ?_, ?_, ?_,
    ?_⟩, ?_⟩
  · intro q
    show st.queues q = _
    rw [arm_doneCount]
    exact hInv.dropEq q
  · intro q
    rw [hck q, arm_doneCount]
    exact hInv.compKeys q
  · intro q
    by_cases hq : q = p
    · subst hq
      rw [hskp, arm_startCount, hInv.startKeys q, hcnt, hkeys]
    · rw [hsko q hq, arm_startCount_other st p q k r0 hq]
      exact hInv.startKeys q
  · intro q
    by_cases hq : q = p
    · subst hq
      right
      rw [arm_startCount, arm_doneCount, hcnt]
    · rw [arm_startCount_other st p q k r0 hq, arm_doneCount]
      exact hInv.startBound q
  · intro e he
    have hep : e.1 ≠ p := hnotp e he
    obtain ⟨h1, rr, h2⟩ := hInv.storedShape e he
    refine ⟨?_, rr, h2⟩
    rw [arm_startCount_other st p e.1 k r0 hep, arm_doneCount]
    exact h1
  · intro q
    exact hInv.storedOne q
  · intro q
    show (st.trace ++ [Ev.armedTimer st.nextTimer r0.doneCheckTimeout,
      Ev.started p k]).count (Ev.drained q) = _
    have h1 : Ev.drained q ≠ Ev.armedTimer st.nextTimer r0.doneCheckTimeout :=
      by simp
    have h2 : Ev.drained q ≠ Ev.started p k := by simp
    simpa [List.count_append, List.count_cons, h1, h2] using
      hInv.drainedCount q
  · intro q hq
    exact hInv.drainedEmpty q hq
  · intro q hbegun
    by_cases hq : q = p
    · subst hq
      exact hlow
    · apply hInv.gating q
      rcases hbegun with h | h | h | h | h | h
      · exact Or.inl h
      · exact Or.inr <| Or.inl h
      · exact Or.inr (Or.inr (Or.inl
          (by rwa [arm_startCount_other st p q k r0 hq] at h)))
      · exact Or.inr (Or.inr (Or.inr (Or.inl
          (by rwa [arm_doneCount] at h))))
      · exact Or.inr <| Or.inr (Or.inr <| Or.inr (Or.inl h))
      · exact Or.inr <| Or.inr (Or.inr <| Or.inr (Or.inr h))
  · intro q hmem
    have hq : q ≠ p := fun hh => hticket (hh ▸ hmem)
    obtain ⟨h1, h2, h3, h4, h5⟩ := hInv.ticketInv q hmem
    exact ⟨h1, h2, by rwa [arm_startCount_other st p q k r0 hq],
      by rwa [arm_doneCount], h5⟩
  · intro q
    exact hInv.tickCount q
  · intro h
    exact absurd h (by simp [armWatchdog, hwarm])
  · exact hInv.regLt
  · intro hf c hc
    exact List.mem_append_left _ (hInv.finInv hf c hc)
  · intro c a hmem
    rcases List.mem_append.mp hmem with hm | hm
    · exact hInv.invArgs c a hm
    · simp at hm
  · intro q h1 h2
    exact hInv.emptyDrained q h1 h2

theorem storedFor_append (q : Phase) (st : SchedState)
    (s : List (Phase × String × Nat)) (e : Phase × String × Nat) :
    storedFor q { st with stored := s ++ [e] } =
    (s.filter (fun x => x.1 = q)) ++ (if e.1 = q then [e] else []) := by
  unfold storedFor
  show (s ++ [e]).filter (fun x => decide (x.1 = q)) = _
  rw [List.filter_append]
  by_cases he : e.1 = q <;> simp [he]

theorem storedAppend_inv (regs : List Reg) (p : Phase) (st1 : SchedState)
    (k : String) (r0 : Reg) (tid : Nat)
    (hInv : SchedInv regs st1)
    (hhead : (st1.queues p).head? = some (k, r0))
    (hstored : storedFor p st1 = [])
    (hcnt : startCount p st1 = doneCount p st1 + 1)
    (hlow : lowerDrained p st1)
    (hticket : TickTask.processQ p ∉ st1.ticks)
    (hwarm : st1.warmupDone = true) :
    SchedInv regs { st1 with stored := st1.stored ++ [(p, k, tid)] } := by
  have hstf : ∀ q, q ≠ p →
      storedFor q { st1 with stored := st1.stored ++ [(p, k, tid)] } =
      storedFor q st1 := by
    intro q hq
    rw [storedFor_append]
    simp [Ne.symm hq]
    rfl
  have hstfp : storedFor p { st1 with stored := st1.stored ++ [(p, k, tid)] } =
      [(p, k, tid)] := by
    rw [storedFor_append]
    have : st1.stored.filter (fun x => x.1 = p) = [] := hstored
    simp [this]
  refine ⟨⟨hInv.boot, hInv.dropEq, hInv.compKeys, hInv.startKeys,
    hInv.startBound, ?_, ?_, hInv.drainedCount, hInv.drainedEmpty, ?_, ?_,
    hInv.tickCount, ?_, hInv.regLt, hInv.finInv, hInv.invArgs⟩,
    hInv.emptyDrained⟩
  · intro e he
    rcases List.mem_append.mp he with hm | hm
    · exact hInv.storedShape e hm
    · have : e = (p, k, tid) := List.mem_singleton.mp hm
      subst this
      exact ⟨hcnt, r0, hhead⟩
  · intro q
    by_cases hq : q = p
    · subst hq
      rw [hstfp]
      simp
    · rw [hstf q hq]
      exact hInv.storedOne q
  · intro q hbegun
    by_cases hq : q = p
    · subst hq
      exact hlow
    · apply hInv.gating q
      rcases hbegun with h | h | h | h | h | h
      · exact Or.inl h
      · exact Or.inr <| Or.inl h
      · exact Or.inr <| Or.inr (Or.inl h)
      · exact Or.inr <| Or.inr (Or.inr <| Or.inl h)
      · exact Or.inr (Or.inr (Or.inr (Or.inr (Or.inl
          (by rwa [hstf q hq] at h)))))
      · exact Or.inr <| Or.inr (Or.inr <| Or.inr (Or.inr h))
  · intro q hmem
    have hq : q ≠ p := fun hh => hticket (hh ▸ hmem)
    obtain ⟨h1, h2, h3, h4, h5⟩ := hInv.ticketInv q hmem
    exact ⟨h1, by rwa [hstf q hq], h3, h4, h5⟩
  · intro h
    exact absurd h (by simp [hwarm])

theorem pqiStep_inv (regs : List Reg) (p : Phase)
    (next : SchedState → SchedState)
    (hnext : ∀ s, SchedInv regs s → PhasePre p s → SchedInv regs (next s))
    (st : SchedState) (hInv : SchedInv regs st) (hPre : PhasePre p st) :
    SchedInv regs (pqiStep st p next) := by
  obtain ⟨hstored, hcnt, hlow, hticket, hwarm⟩ := hPre
  unfold pqiStep
  cases hh : (st.queues p).head? with
  | none => exact hInv
  | some e =>
    obtain ⟨k, r0⟩ := e
    dsimp only
    by_cases hm : r0.hasMethod = false
    · rw [if_pos hm]
      apply inv_inert_update regs st hInv _ st.timers st.nextTimer
      · intro q; simp
      · intro q; simp
      · intro q
        have h2 : Ev.drained q ≠ Ev.missingMethod p k := by simp
        simp [List.count_append, List.count_cons, h2]
      · intro e he; exact List.mem_append_left _ he
      · intro c a hmem
        rcases List.mem_append.mp hmem with h' | h'
        · exact h'
        · simp at h'
    · rw [if_neg hm]
      have hInv1 := arm_inv regs p st k r0 hInv hh hstored hcnt hlow hticket
        hwarm
      have hhead1 : ((armWatchdog st p k r0).queues p).head? = some (k, r0) :=
        hh
      have hstored1 : storedFor p (armWatchdog st p k r0) = [] := hstored
      have hcnt1 : startCount p (armWatchdog st p k r0) =
          doneCount p (armWatchdog st p k r0) + 1 := by
        rw [arm_startCount, arm_doneCount, hcnt]
      have hlow1 : lowerDrained p (armWatchdog st p k r0) := hlow
      have hticket1 : TickTask.processQ p ∉ (armWatchdog st p k r0).ticks :=
        hticket
      have hwarm1 : (armWatchdog st p k r0).warmupDone = true := hwarm
      by_cases hs : r0.sync
      · rw [if_pos hs]
        exact dcb_inv_some regs p next hnext (armWatchdog st p k r0) k r0
          st.nextTimer hInv1 hhead1 hstored1 hcnt1 hlow1 hticket1 hwarm1
      · rw [if_neg hs]
        exact storedAppend_inv regs p (armWatchdog st p k r0) k r0
          st.nextTimer hInv1 hhead1 hstored1 hcnt1 hlow1 hticket1 hwarm1

theorem pqi_inv (regs : List Reg) (p : Phase) :
    ∀ (fuel : Nat) (st : SchedState), SchedInv regs st → PhasePre p st →
    SchedInv regs (pqiGo fuel st p) := by
  intro fuel
  induction fuel with
  | zero =>
    intro st hInv hPre
    exact pqiStep_inv regs p id (fun s h _ => h) st hInv hPre
  | succ f ih =>
    intro st hInv hPre
    exact pqiStep_inv regs p (fun s => pqiGo f s p) (fun s h hp => ih s h hp)
      st hInv hPre

/-! ## Step-level invariant preservation -/

theorem phasePos_pos_of_ne_first {p : Phase}
    (hp : p ≠ Phase.frameworkBeforeBoot) : 0 < phasePos p := by
  cases p
  · exact absurd rfl hp
  all_goals simp [phasePos]

theorem warm_of_begun (regs : List Reg) (st : SchedState)
    (hInv : SchedInv regs st) (p : Phase) (hb : phaseBegun p st) :
    st.warmupDone = true := by
  cases hw : st.warmupDone with
  | true => rfl
  | false =>
    have hg := hInv.warmGate hw
    by_cases hp : p = Phase.frameworkBeforeBoot
    · subst hp
      exact absurd hb hg
    · have hlow := hInv.gating p hb
      have hflag := hlow Phase.frameworkBeforeBoot
        (by simpa [phasePos] using phasePos_pos_of_ne_first hp)
      exact absurd (Or.inr (Or.inl hflag)) hg

theorem ticks_tail_inv (regs : List Reg) (st : SchedState)
    (hInv : SchedInv regs st) (t : TickTask) (rest : List TickTask)
    (hticks : st.ticks = t :: rest) :
    SchedInv regs { st with ticks := rest } := by
  refine ⟨⟨hInv.boot, hInv.dropEq, hInv.compKeys, hInv.startKeys,
    hInv.startBound, hInv.storedShape, hInv.storedOne, hInv.drainedCount,
    hInv.drainedEmpty, ?_, ?_, ?_, ?_, hInv.regLt, hInv.finInv,
    hInv.invArgs⟩, hInv.emptyDrained⟩
  · intro q hbegun
    apply hInv.gating q
    rcases hbegun with h | h | h | h | h | h
    · exact Or.inl h
    · exact Or.inr <| Or.inl h
    · exact Or.inr <| Or.inr (Or.inl h)
    · exact Or.inr <| Or.inr (Or.inr <| Or.inl h)
    · exact Or.inr <| Or.inr (Or.inr <| Or.inr (Or.inl h))
    · refine Or.inr <| Or.inr (Or.inr <| Or.inr (Or.inr ?_))
      rw [hticks]
      exact List.mem_cons_of_mem t h
  · intro q hmem
    exact hInv.ticketInv q (by rw [hticks]; exact List.mem_cons_of_mem t hmem)
  · intro q
    show rest.count (TickTask.processQ q) ≤ 1
    have := hInv.tickCount q
    rw [hticks, List.count_cons] at this
    omega
  · intro h
    have hg := hInv.warmGate h
    intro hbegun
    apply hg
    rcases hbegun with h' | h' | h' | h' | h' | h'
    · exact Or.inl h'
    · exact Or.inr <| Or.inl h'
    · exact Or.inr <| Or.inr (Or.inl h')
    · exact Or.inr <| Or.inr (Or.inr <| Or.inl h')
    · exact Or.inr <| Or.inr (Or.inr <| Or.inr (Or.inl h'))
    · refine Or.inr <| Or.inr (Or.inr <| Or.inr (Or.inr ?_))
      rw [hticks]
      exact List.mem_cons_of_mem t h'

theorem subscribe_inv (regs : List Reg) (p : Phase) (st : SchedState)
    (hInv : SchedInv regs st)
    (hlow : lowerDrained p st)
    (hticket : TickTask.processQ p ∉ st.ticks)
    (hwarm : st.warmupDone = true) :
    SchedInv regs { st with
      subscribed := fun q => if q = p then true else st.subscribed q } := by
  refine ⟨⟨hInv.boot, hInv.dropEq, hInv.compKeys, hInv.startKeys,
    hInv.startBound, hInv.storedShape, hInv.storedOne, hInv.drainedCount,
    hInv.drainedEmpty, ?_, ?_, hInv.tickCount, ?_, hInv.regLt, hInv.finInv,
    hInv.invArgs⟩, hInv.emptyDrained⟩
  · intro q hbegun
    by_cases hq : q = p
    · subst hq
      exact hlow
    · apply hInv.gating q
      rcases hbegun with h | h | h | h | h | h
      · refine Or.inl ?_
        have h' : (if q = p then true else st.subscribed q) = true := h
        rwa [if_neg hq] at h' 
      · exact Or.inr <| Or.inl h
      · exact Or.inr <| Or.inr (Or.inl h)
      · exact Or.inr <| Or.inr (Or.inr <| Or.inl h)
      · exact Or.inr <| Or.inr (Or.inr <| Or.inr (Or.inl h))
      · exact Or.inr <| Or.inr (Or.inr <| Or.inr (Or.inr h))
  · intro q hmem
    have hq : q ≠ p := fun hh => hticket (hh ▸ hmem)
    obtain ⟨h1, h2, h3, h4, h5⟩ := hInv.ticketInv q hmem
    refine ⟨?_, h2, h3, h4, h5⟩
    show (if q = p then true else st.subscribed q) = false
    rw [if_neg hq]
    exact h1
  · intro h
    exact absurd h (by simp [hwarm])

theorem processQueueFn_inv (regs : List Reg) (p : Phase) (st : SchedState)
    (hInv : SchedInv regs st)
    (hstored : storedFor p st = [])
    (hstart : startCount p st = 0) (hdone : doneCount p st = 0)
    (hlow : lowerDrained p st)
    (hticket : TickTask.processQ p ∉ st.ticks)
    (hwarm : st.warmupDone = true) :
    SchedInv regs (processQueueFn st p) := by
  unfold processQueueFn
  by_cases hl : (st.queues p).length = 0
  · rw [if_pos hl]
    exact dcb_inv_none regs p id st hInv (List.length_eq_zero.mp hl)
      ⟨hstored, hstart.trans hdone.symm, hlow, hticket, hwarm⟩
  · rw [if_neg hl]
    have hInv' := subscribe_inv regs p st hInv hlow hticket hwarm
    exact pqi_inv regs p _ _ hInv'
      ⟨hstored, hstart.trans hdone.symm, hlow, hticket, hwarm⟩

theorem storedFor_erase_self (p : Phase) :
    ∀ (l : List (Phase × String × Nat)) (i : Nat) (en : Phase × String × Nat),
    l.get? i = some en → en.1 = p →
    (l.filter (fun x => x.1 = p)).length ≤ 1 →
    (l.eraseIdx i).filter (fun x => x.1 = p) = [] := by
  intro l
  induction l with
  | nil => intro i en h; simp at h
  | cons a t ih =>
    intro i en hget hp hlen
    cases i with
    | zero =>
      simp only [List.get?_cons_zero, Option.some.injEq] at hget
      subst hget
      show t.filter (fun x => x.1 = p) = []
      rw [List.filter_cons_of_pos (by simp [hp])] at hlen
      simp only [List.length_cons] at hlen
      have : (t.filter (fun x => x.1 = p)).length = 0 := by omega
      exact List.length_eq_zero.mp this
    | succ j =>
      simp only [List.get?_cons_succ] at hget
      show (a :: t.eraseIdx j).filter (fun x => x.1 = p) = []
      by_cases hap : a.1 = p
      · exfalso
        rw [List.filter_cons_of_pos (by simp [hap])] at hlen
        simp only [List.length_cons] at hlen
        have hmem : en ∈ t := List.getElem?_mem
          (by rw [← List.get?_eq_getElem?]; exact hget)
        have : en ∈ t.filter (fun x => x.1 = p) :=
          List.mem_filter.mpr ⟨hmem, by simp [hp]⟩
        have := List.length_pos.mpr (List.ne_nil_of_mem this)
        omega
      · rw [List.filter_cons_of_neg (by simp [hap])]
        rw [List.filter_cons_of_neg (by simp [hap])] at hlen
        exact ih j en hget hp hlen

theorem stored_erase_inv (regs : List Reg) (st : SchedState) (i : Nat)
    (hInv : SchedInv regs st) :
    SchedInv regs { st with stored := st.stored.eraseIdx i } := by
  have hsub : (st.stored.eraseIdx i).Sublist st.stored :=
    List.eraseIdx_sublist st.stored i
  have hstf : ∀ q, (storedFor q { st with stored := st.stored.eraseIdx i
      }).Sublist (storedFor q st) := by
    intro q
    exact List.Sublist.filter _ hsub
  refine ⟨⟨hInv.boot, hInv.dropEq, hInv.compKeys, hInv.startKeys,
    hInv.startBound, ?_, ?_, hInv.drainedCount, hInv.drainedEmpty, ?_, ?_,
    hInv.tickCount, ?_, hInv.regLt, hInv.finInv, hInv.invArgs⟩,
    hInv.emptyDrained⟩
  · intro e he
    exact hInv.storedShape e (hsub.subset he)
  · intro q
    exact Nat.le_trans (hstf q).length_le (hInv.storedOne q)
  · intro q hbegun
    apply hInv.gating q
    rcases hbegun with h | h | h | h | h | h
    · exact Or.inl h
    · exact Or.inr <| Or.inl h
    · exact Or.inr <| Or.inr (Or.inl h)
    · exact Or.inr <| Or.inr (Or.inr <| Or.inl h)
    · refine Or.inr <| Or.inr (Or.inr <| Or.inr (Or.inl ?_))
      intro hnil
      apply h
      have := hstf q
      rw [hnil] at this
      exact List.sublist_nil.mp this
    · exact Or.inr <| Or.inr (Or.inr <| Or.inr (Or.inr h))
  · intro q hmem
    obtain ⟨h1, h2, h3, h4, h5⟩ := hInv.ticketInv q hmem
    refine ⟨h1, ?_, h3, h4, h5⟩
    have := hstf q
    rw [show storedFor q st = [] from h2] at this
    exact List.sublist_nil.mp this
  · intro h
    have hg := hInv.warmGate h
    intro hbegun
    apply hg
    rcases hbegun with h' | h' | h' | h' | h' | h'
    · exact Or.inl h'
    · exact Or.inr <| Or.inl h'
    · exact Or.inr <| Or.inr (Or.inl h')
    · exact Or.inr <| Or.inr (Or.inr <| Or.inl h')
    · refine Or.inr <| Or.inr (Or.inr <| Or.inr (Or.inl ?_))
      intro hnil
      apply h'
      have := hstf Phase.frameworkBeforeBoot
      rw [hnil] at this
      exact List.sublist_nil.mp this
    · exact Or.inr <| Or.inr (Or.inr <| Or.inr (Or.inr h'))

theorem ticks_snoc_inv (regs : List Reg) (st : SchedState)
    (hInv : SchedInv regs st) (t : TickTask)
    (ht : ∀ q, t ≠ TickTask.processQ q) :
    SchedInv regs { st with ticks := st.ticks ++ [t] } := by
  refine ⟨⟨hInv.boot, hInv.dropEq, hInv.compKeys, hInv.startKeys,
    hInv.startBound, hInv.storedShape, hInv.storedOne, hInv.drainedCount,
    hInv.drainedEmpty, ?_, ?_, ?_, ?_, hInv.regLt, hInv.finInv,
    hInv.invArgs⟩, hInv.emptyDrained⟩
  · intro q hbegun
    apply hInv.gating q
    rcases hbegun with h | h | h | h | h | h
    · exact Or.inl h
    · exact Or.inr <| Or.inl h
    · exact Or.inr <| Or.inr (Or.inl h)
    · exact Or.inr <| Or.inr (Or.inr <| Or.inl h)
    · exact Or.inr <| Or.inr (Or.inr <| Or.inr (Or.inl h))
    · refine Or.inr <| Or.inr (Or.inr <| Or.inr (Or.inr ?_))
      rcases List.mem_append.mp h with h' | h'
      · exact h'
      · exact absurd (List.mem_singleton.mp h').symm (ht q)
  · intro q hmem
    rcases List.mem_append.mp hmem with h' | h'
    · exact hInv.ticketInv q h'
    · exact absurd (List.mem_singleton.mp h').symm (ht q)
  · intro q
    have hne : TickTask.processQ q ≠ t := fun hh => ht q hh.symm
    show (st.ticks ++ [t]).count (TickTask.processQ q) ≤ 1
    simpa [List.count_append, List.count_singleton', hne] using
      hInv.tickCount q
  · intro h
    have hg := hInv.warmGate h
    intro hbegun
    apply hg
    rcases hbegun with h' | h' | h' | h' | h' | h'
    · exact Or.inl h'
    · exact Or.inr <| Or.inl h'
    · exact Or.inr <| Or.inr (Or.inl h')
    · exact Or.inr <| Or.inr (Or.inr <| Or.inl h')
    · exact Or.inr <| Or.inr (Or.inr <| Or.inr (Or.inl h'))
    · refine Or.inr <| Or.inr (Or.inr <| Or.inr (Or.inr ?_))
      rcases List.mem_append.mp h' with h'' | h''
      · exact h''
      · exact absurd (List.mem_singleton.mp h'').symm
          (ht Phase.frameworkBeforeBoot)

theorem fireFinish_inv (regs : List Reg) (st : SchedState)
    (hInv : SchedInv regs st) :
    SchedInv regs { st with
      trace := st.trace ++ [Ev.finished] ++
        st.registered.map (fun c => Ev.invoked c [true]),
      finishCompleted := true } := by
  have happ : ∀ q, completedKeys q (st.trace ++ [Ev.finished] ++
      st.registered.map (fun c => Ev.invoked c [true])) =
      completedKeys q st.trace := by
    intro q
    rw [completedKeys_append, completedKeys_append]
    have h1 : completedKeys q (st.registered.map
        (fun c => Ev.invoked c [true])) = [] := by
      apply List.filterMap_eq_nil_iff.mpr
      intro e he
      obtain ⟨c, _, hc⟩ := List.mem_map.mp he
      subst hc
      rfl
    simp [h1]
  have happ2 : ∀ q, startedKeys q (st.trace ++ [Ev.finished] ++
      st.registered.map (fun c => Ev.invoked c [true])) =
      startedKeys q st.trace := by
    intro q
    rw [startedKeys_append, startedKeys_append]
    have h1 : startedKeys q (st.registered.map
        (fun c => Ev.invoked c [true])) = [] := by
      apply List.filterMap_eq_nil_iff.mpr
      intro e he
      obtain ⟨c, _, hc⟩ := List.mem_map.mp he
      subst hc
      rfl
    simp [h1]
  have happ3 : ∀ q, (st.trace ++ [Ev.finished] ++
      st.registered.map (fun c => Ev.invoked c [true])).count
      (Ev.drained q) = st.trace.count (Ev.drained q) := by
    intro q
    rw [List.count_append, List.count_append]
    have h1 : (st.registered.map (fun c => Ev.invoked c [true])).count
        (Ev.drained q) = 0 := by
      apply List.count_eq_zero.mpr
      intro hmem
      obtain ⟨c, _, hc⟩ := List.mem_map.mp hmem
      simp at hc
    have h2 : ([Ev.finished] : List Ev).count (Ev.drained q) = 0 := by simp
    simp [h1, h2]
  have hdc : ∀ q, doneCount q { st with
      trace := st.trace ++ [Ev.finished] ++
        st.registered.map (fun c => Ev.invoked c [true]),
      finishCompleted := true } = doneCount q st := by
    intro q
    show (completedKeys q _).length = _
    rw [happ q]
    rfl
  have hsc : ∀ q, startCount q { st with
      trace := st.trace ++ [Ev.finished] ++
        st.registered.map (fun c => Ev.invoked c [true]),
      finishCompleted := true } = startCount q st := by
    intro q
    show (startedKeys q _).length = _
    rw [happ2 q]
    rfl
  refine ⟨⟨hInv.boot, ?_, ?_, ?_, ?_, ?_, hInv.storedOne, ?_,
    hInv.drainedEmpty, ?_, ?_, hInv.tickCount, ?_, hInv.regLt, ?_, ?_⟩,
    hInv.emptyDrained⟩
  · intro q
    rw [hdc q]
    exact hInv.dropEq q
  · intro q
    show completedKeys q _ = _
    rw [happ q, hdc q]
    exact hInv.compKeys q
  · intro q
    show startedKeys q _ = _
    rw [happ2 q, hsc q]
    exact hInv.startKeys q
  · intro q
    rw [hsc q, hdc q]
    exact hInv.startBound q
  · intro e he
    obtain ⟨h1, rr, h2⟩ := hInv.storedShape e he
    exact ⟨by rw [hsc, hdc]; exact h1, rr, h2⟩
  · intro q
    show List.count _ _ = _
    rw [happ3 q]
    exact hInv.drainedCount q
  · intro q hbegun
    have hb : phaseBegun q st := by
      rcases hbegun with h | h | h | h | h | h
      · exact Or.inl h
      · exact Or.inr <| Or.inl h
      · exact Or.inr <| Or.inr (Or.inl (by rwa [hsc q] at h))
      · exact Or.inr <| Or.inr (Or.inr <| Or.inl (by rwa [hdc q] at h))
      · exact Or.inr <| Or.inr (Or.inr <| Or.inr (Or.inl h))
      · exact Or.inr <| Or.inr (Or.inr <| Or.inr (Or.inr h))
    exact hInv.gating q hb
  · intro q hq
    obtain ⟨h1, h2, h3, h4, h5⟩ := hInv.ticketInv q hq
    exact ⟨h1, h2, by rw [hsc]; exact h3, by rw [hdc]; exact h4, h5⟩
  · intro h
    have hg := hInv.warmGate h
    intro hbegun
    apply hg
    rcases hbegun with h' | h' | h' | h' | h' | h'
    · exact Or.inl h'
    · exact Or.inr <| Or.inl h'
    · exact Or.inr <| Or.inr (Or.inl (by rwa [hsc _] at h'))
    · exact Or.inr <| Or.inr (Or.inr <| Or.inl (by rwa [hdc _] at h'))
    · exact Or.inr <| Or.inr (Or.inr <| Or.inr (Or.inl h'))
    · exact Or.inr <| Or.inr (Or.inr <| Or.inr (Or.inr h'))
  · intro _ c hc
    apply List.mem_append_right
    exact List.mem_map.mpr ⟨c, hc, rfl⟩
  · intro c a hmem
    rcases List.mem_append.mp hmem with hm | hm
    · rcases List.mem_append.mp hm with hm' | hm'
      · exact hInv.invArgs c a hm'
      · simp at hm'
    · obtain ⟨c', hc', hcc⟩ := List.mem_map.mp hm
      have h1 : c' = c := by injection hcc
      have h2 : a = [true] := by injection hcc with hh1 hh2; exact hh2.symm
      subst h1
      exact ⟨hc', h2⟩

theorem warmup_inv (regs : List Reg) (st : SchedState)
    (hInv : SchedInv regs st)
    (_harm : st.warmupArmed = true) (hdone : st.warmupDone = false) :
    SchedInv regs { st with
      warmupDone := true,
      ticks := st.ticks ++ [TickTask.processQ Phase.frameworkBeforeBoot] } := by
  have hnb := hInv.warmGate hdone
  rw [not_phaseBegun_iff] at hnb
  obtain ⟨hn1, hn2, hn3, hn4, hn5, hn6⟩ := hnb
  refine ⟨⟨hInv.boot, hInv.dropEq, hInv.compKeys, hInv.startKeys,
    hInv.startBound, hInv.storedShape, hInv.storedOne, hInv.drainedCount,
    hInv.drainedEmpty, ?_, ?_, ?_, ?_, hInv.regLt, hInv.finInv,
    hInv.invArgs⟩, hInv.emptyDrained⟩
  · intro q hbegun
    by_cases hq : q = Phase.frameworkBeforeBoot
    · subst hq
      intro x hx
      simp [phasePos] at hx
    · have hb : phaseBegun q st := by
        rcases hbegun with h | h | h | h | h | h
        · exact Or.inl h
        · exact Or.inr <| Or.inl h
        · exact Or.inr <| Or.inr (Or.inl h)
        · exact Or.inr <| Or.inr (Or.inr <| Or.inl h)
        · exact Or.inr <| Or.inr (Or.inr <| Or.inr (Or.inl h))
        · refine Or.inr <| Or.inr (Or.inr <| Or.inr (Or.inr ?_))
          rcases List.mem_append.mp h with h' | h'
          · exact h'
          · exact absurd (by injection List.mem_singleton.mp h') hq
      exact hInv.gating q hb
  · intro q hmem
    rcases List.mem_append.mp hmem with h' | h'
    · exact hInv.ticketInv q h'
    · have hq : q = Phase.frameworkBeforeBoot := by
        injection List.mem_singleton.mp h'
      subst hq
      exact ⟨hn1, hn5, hn3, hn4, hn2⟩
  · intro q
    by_cases hq : q = Phase.frameworkBeforeBoot
    · subst hq
      have h0 : st.ticks.count
          (TickTask.processQ Phase.frameworkBeforeBoot) = 0 :=
        List.count_eq_zero.mpr hn6
      show (st.ticks ++ [TickTask.processQ Phase.frameworkBeforeBoot]).count
        (TickTask.processQ Phase.frameworkBeforeBoot) ≤ 1
      simp [List.count_append, h0]
    · have hne : TickTask.processQ q ≠
          TickTask.processQ Phase.frameworkBeforeBoot :=
        fun hh => hq (by injection hh)
      show (st.ticks ++ [TickTask.processQ Phase.frameworkBeforeBoot]).count
        (TickTask.processQ q) ≤ 1
      simpa [List.count_append, List.count_singleton', hne] using
        hInv.tickCount q
  · intro h
    simp at h

theorem regDone_inv (regs : List Reg) (st : SchedState)
    (hInv : SchedInv regs st) :
    SchedInv regs (doneRegister st) := by
  unfold doneRegister
  have hbase : ∀ (R : List Nat), (∀ c ∈ R, c < st.nextCb + 1) →
      (st.finishCompleted = true → ∀ c ∈ R,
        Ev.invoked c [true] ∈ st.trace) →
      (∀ c a, Ev.invoked c a ∈ st.trace → c ∈ R ∧ a = [true]) →
      SchedInv regs { st with
        trace := st.trace ++ [Ev.registeredDone st.nextCb],
        nextCb := st.nextCb + 1, registered := R } := by
    intro R hR hRf hRa
    have hdc : ∀ q, doneCount q { st with
        trace := st.trace ++ [Ev.registeredDone st.nextCb],
        nextCb := st.nextCb + 1, registered := R } = doneCount q st := by
      intro q
      show (completedKeys q _).length = _
      simp
      rfl
    have hsc : ∀ q, startCount q { st with
        trace := st.trace ++ [Ev.registeredDone st.nextCb],
        nextCb := st.nextCb + 1, registered := R } = startCount q st := by
      intro q
      show (startedKeys q _).length = _
      simp
      rfl
    refine ⟨⟨hInv.boot, ?_, ?_, ?_, ?_, ?_, hInv.storedOne, ?_,
      hInv.drainedEmpty, ?_, ?_, hInv.tickCount, ?_, hR, ?_, ?_⟩,
      hInv.emptyDrained⟩
    · intro q
      rw [hdc q]
      exact hInv.dropEq q
    · intro q
      show completedKeys q _ = _
      rw [hdc q]
      simp
      exact hInv.compKeys q
    · intro q
      show startedKeys q _ = _
      rw [hsc q]
      simp
      exact hInv.startKeys q
    · intro q
      rw [hsc q, hdc q]
      exact hInv.startBound q
    · intro e he
      obtain ⟨h1, rr, h2⟩ := hInv.storedShape e he
      exact ⟨by rw [hsc, hdc]; exact h1, rr, h2⟩
    · intro q
      have h2 : Ev.drained q ≠ Ev.registeredDone st.nextCb := by simp
      show List.count _ _ = _
      simpa [List.count_append, List.count_singleton', h2] using
        hInv.drainedCount q
    · intro q hbegun
      have hb : phaseBegun q st := by
        rcases hbegun with h | h | h | h | h | h
        · exact Or.inl h
        · exact Or.inr <| Or.inl h
        · exact Or.inr <| Or.inr (Or.inl (by rwa [hsc q] at h))
        · exact Or.inr <| Or.inr (Or.inr <| Or.inl (by rwa [hdc q] at h))
        · exact Or.inr <| Or.inr (Or.inr <| Or.inr (Or.inl h))
        · exact Or.inr <| Or.inr (Or.inr <| Or.inr (Or.inr h))
      exact hInv.gating q hb
    · intro q hq
      obtain ⟨h1, h2, h3, h4, h5⟩ := hInv.ticketInv q hq
      exact ⟨h1, h2, by rw [hsc]; exact h3, by rw [hdc]; exact h4, h5⟩
    · intro h
      have hg := hInv.warmGate h
      intro hbegun
      apply hg
      rcases hbegun with h' | h' | h' | h' | h' | h'
      · exact Or.inl h'
      · exact Or.inr <| Or.inl h'
      · exact Or.inr <| Or.inr (Or.inl (by rwa [hsc _] at h'))
      · exact Or.inr <| Or.inr (Or.inr <| Or.inl (by rwa [hdc _] at h'))
      · exact Or.inr <| Or.inr (Or.inr <| Or.inr (Or.inl h'))
      · exact Or.inr <| Or.inr (Or.inr <| Or.inr (Or.inr h'))
    · intro hf c hc
      exact List.mem_append_left _ (hRf hf c hc)
    · intro c a hmem
      rcases List.mem_append.mp hmem with hm | hm
      · exact hRa c a hm
      · simp at hm
  by_cases hfc : st.finishCompleted = true
  · rw [if_pos hfc]
    apply hbase st.registered
    · intro c hc
      exact Nat.lt_succ_of_lt (hInv.regLt c hc)
    · intro hf c hc
      exact hInv.finInv hf c hc
    · exact hInv.invArgs
  · rw [if_neg hfc]
    apply hbase (st.registered ++ [st.nextCb])
    · intro c hc
      rcases List.mem_append.mp hc with h' | h'
      · exact Nat.lt_succ_of_lt (hInv.regLt c h')
      · rw [List.mem_singleton.mp h']
        exact Nat.lt_succ_self _
    · intro hf
      exact absurd hf hfc
    · intro c a hmem
      obtain ⟨h1, h2⟩ := hInv.invArgs c a hmem
      exact ⟨List.mem_append_left _ h1, h2⟩

theorem step_inv (regs : List Reg) (st : SchedState) (e : EEvent)
    (hInv : SchedInv regs st) : SchedInv regs (step st e) := by
  cases e with
  | warmup =>
    show SchedInv regs (if st.warmupArmed = true ∧ st.warmupDone = false
      then _ else st)
    by_cases hg : st.warmupArmed = true ∧ st.warmupDone = false
    · rw [if_pos hg]
      exact warmup_inv regs st hInv hg.1 hg.2
    · rw [if_neg hg]
      exact hInv
  | tick =>
    show SchedInv regs (match st.ticks with
      | [] => st
      | t :: rest => runTask { st with ticks := rest } t)
    cases hticks : st.ticks with
    | nil => exact hInv
    | cons t rest =>
      have hInv' := ticks_tail_inv regs st hInv t rest hticks
      cases t with
      | processQ p =>
        have hmem : TickTask.processQ p ∈ st.ticks := by
          rw [hticks]
          exact List.mem_cons_self _ _
        obtain ⟨h1, h2, h3, h4, h5⟩ := hInv.ticketInv p hmem
        have hbeg : phaseBegun p st :=
          Or.inr <| Or.inr (Or.inr <| Or.inr (Or.inr hmem))
        have hlow := hInv.gating p hbeg
        have hwarm := warm_of_begun regs st hInv p hbeg
        have hnotin : TickTask.processQ p ∉ rest := by
          have := hInv.tickCount p
          rw [hticks, List.count_cons_self] at this
          have h0 : rest.count (TickTask.processQ p) = 0 := by omega
          exact List.count_eq_zero.mp h0
        show SchedInv regs (processQueueFn { st with ticks := rest } p)
        exact processQueueFn_inv regs p _ hInv' h2 h3 h4 hlow hnotin hwarm
      | finishBoot =>
        show SchedInv regs { { st with ticks := rest } with
          ticks := rest ++ [TickTask.fireFinish] }
        exact ticks_snoc_inv regs { st with ticks := rest } hInv'
          TickTask.fireFinish (fun q => by simp)
      | fireFinish =>
        show SchedInv regs (if ({ st with ticks := rest } :
            SchedState).finishCompleted = true then { st with ticks := rest }
          else _)
        by_cases hfc : st.finishCompleted = true
        · rw [if_pos hfc]
          exact hInv'
        · rw [if_neg hfc]
          exact fireFinish_inv regs { st with ticks := rest } hInv'
  | fireDone i =>
    show SchedInv regs (match st.stored.get? i with
      | none => st
      | some (p, k, tid) =>
        runStoredDone { st with stored := st.stored.eraseIdx i } p k tid)
    cases hget : st.stored.get? i with
    | none => exact hInv
    | some en =>
      obtain ⟨p, k, tid⟩ := en
      have hmem : (p, k, tid) ∈ st.stored :=
        List.getElem?_mem (by rw [← List.get?_eq_getElem?]; exact hget)
      obtain ⟨hcnt0, r0, hhead0⟩ := hInv.storedShape (p, k, tid) hmem
      have hInv' := stored_erase_inv regs st i hInv
      have hmemf : (p, k, tid) ∈ storedFor p st :=
        List.mem_filter.mpr ⟨hmem, by simp⟩
      have hstfne : storedFor p st ≠ [] := List.ne_nil_of_mem hmemf
      have hbeg : phaseBegun p st :=
        Or.inr <| Or.inr (Or.inr <| Or.inr (Or.inl hstfne))
      have hlow := hInv.gating p hbeg
      have hwarm := warm_of_begun regs st hInv p hbeg
      have hticket : TickTask.processQ p ∉ st.ticks := by
        intro hmm
        have := (hInv.ticketInv p hmm).2.1
        exact hstfne this
      have hstf' : storedFor p { st with stored := st.stored.eraseIdx i }
          = [] := by
        show (st.stored.eraseIdx i).filter (fun x => x.1 = p) = []
        exact storedFor_erase_self p st.stored i (p, k, tid) hget rfl
          (hInv.storedOne p)
      show SchedInv regs (runStoredDone
        { st with stored := st.stored.eraseIdx i } p k tid)
      unfold runStoredDone
      exact dcb_inv_some regs p _
        (fun s h hp => pqi_inv regs p _ s h hp)
        { st with stored := st.stored.eraseIdx i } k r0 tid hInv' hhead0
        hstf' hcnt0 hlow hticket hwarm
  | fireTimer tid =>
    show SchedInv regs (if tid ∈ st.timers then _ else st)
    by_cases hmem : tid ∈ st.timers
    · rw [if_pos hmem]
      apply inv_inert_update regs st hInv _ (st.timers.erase tid) st.nextTimer
      · intro q; simp
      · intro q; simp
      · intro q
        have h1 : Ev.drained q ≠ Ev.warned tid := by simp
        have h2 : Ev.drained q ≠ Ev.clearedIntervalCall tid := by simp
        simp [List.count_append, List.count_cons, h1, h2]
      · intro e he; exact List.mem_append_left _ he
      · intro c a hmm
        rcases List.mem_append.mp hmm with h' | h'
        · exact h'
        · simp at h'
    · rw [if_neg hmem]
      exact hInv
  | regDone => exact regDone_inv regs st hInv
  | callBootstrap regs2 =>
    show SchedInv regs (bootstrapFn regs2 st)
    unfold bootstrapFn
    rw [if_pos hInv.boot]
    exact hInv

theorem init_inv (regs : List Reg) :
    SchedInv regs (bootstrapFn regs idleState) := by
  unfold bootstrapFn
  rw [if_neg (by simp [idleState])]
  refine ⟨⟨rfl, ?_, ?_, ?_, ?_, ?_, ?_, ?_, ?_, ?_, ?_, ?_, ?_, ?_, ?_,
    ?_⟩, ?_⟩
  · intro p; rfl
  · intro p; rfl
  · intro p; rfl
  · intro p; exact Or.inl rfl
  · intro e he; exact absurd he (List.not_mem_nil e)
  · intro q; exact Nat.zero_le 1
  · intro q; rfl
  · intro q h; exact absurd h (by simp [idleState])
  · intro q hb
    rcases hb with h | h | h | h | h | h
    · exact absurd h (by simp [idleState])
    · exact absurd h (by simp [idleState])
    · exact absurd rfl h
    · exact absurd rfl h
    · exact absurd rfl h
    · exact absurd h (List.not_mem_nil _)
  · intro q h; exact absurd h (List.not_mem_nil _)
  · intro q; exact Nat.zero_le 1
  · intro _ hb
    rcases hb with h | h | h | h | h | h
    · exact absurd h (by simp [idleState])
    · exact absurd h (by simp [idleState])
    · exact absurd rfl h
    · exact absurd rfl h
    · exact absurd rfl h
    · exact absurd h (List.not_mem_nil _)
  · intro c hc; exact absurd hc (List.not_mem_nil _)
  · intro hf; exact absurd hf (by simp [idleState])
  · intro c a h; exact absurd h (List.not_mem_nil _)
  · intro q h1 h2; exact absurd h1 h2

theorem inv_run (regs : List Reg) (evs : List EEvent) :
    SchedInv regs (run regs evs) := by
  unfold run
  have h : ∀ (l : List EEvent) (s : SchedState), SchedInv regs s →
      SchedInv regs (l.foldl step s) := by
    intro l
    induction l with
    | nil => intro s hs; exact hs
    | cons e t ih => intro s hs; exact ih _ (step_inv regs s e hs)
  exact h evs _ (init_inv regs)

/-! ## Sublist and key-removal facts -/

theorem completeIfEmpty_queues (st : SchedState) (p : Phase) :
    (completeIfEmpty st p).queues = st.queues := by
  unfold completeIfEmpty
  by_cases h : (st.queues p).length = 0 ∧ st.completedSubj p = false
  · rw [if_pos h]
  · rw [if_neg h]

theorem dcbCore_queues_sublist (st : SchedState) (p : Phase)
    (k? : Option String) (t? : Option Nat) (next : SchedState → SchedState)
    (hnext : ∀ s q, ((next s).queues q).Sublist (s.queues q)) :
    ∀ q, ((dcbCore st p k? t? next).queues q).Sublist (st.queues q) := by
  intro q
  unfold dcbCore
  rw [completeIfEmpty_queues]
  have h1 : (recordClearCall st t?).queues = st.queues := by
    cases t? <;> rfl
  have h2 : ∀ q', ((deleteByKey (recordClearCall st t?) p k?).queues
      q').Sublist ((recordClearCall st t?).queues q') := by
    intro q'
    cases k? with
    | none => exact List.Sublist.refl _
    | some k =>
      show (if q' = p then ((recordClearCall st t?).queues p).filter
        (fun e => e.1 ≠ k) else (recordClearCall st t?).queues q').Sublist _
      by_cases hq : q' = p
      · rw [if_pos hq, hq]
        exact List.filter_sublist _
      · rw [if_neg hq]
  have h3 : ∀ s q', ((notifyCount s p next).queues q').Sublist
      (s.queues q') := by
    intro s q'
    unfold notifyCount
    by_cases hg : s.subscribed p = true ∧ s.completedSubj p = false ∧
        (s.queues p).length ≠ 0
    · rw [if_pos hg]
      exact hnext s q'
    · rw [if_neg hg]
  have h4 := (h3 _ q).trans (h2 q)
  rw [h1] at h4
  exact h4

theorem armWatchdog_queues (st : SchedState) (p : Phase) (k : String)
    (r0 : Reg) : (armWatchdog st p k r0).queues = st.queues := rfl

theorem pqiStep_queues_sublist (st : SchedState) (p : Phase)
    (next : SchedState → SchedState)
    (hnext : ∀ s q, ((next s).queues q).Sublist (s.queues q)) :
    ∀ q, ((pqiStep st p next).queues q).Sublist (st.queues q) := by
  intro q
  unfold pqiStep
  cases hh : (st.queues p).head? with
  | none => exact List.Sublist.refl _
  | some e =>
    obtain ⟨k, r0⟩ := e
    dsimp only
    by_cases hm : r0.hasMethod = false
    · rw [if_pos hm]
    · rw [if_neg hm]
      by_cases hs : r0.sync
      · rw [if_pos hs]
        exact dcbCore_queues_sublist (armWatchdog st p k r0) p (some k)
          (some st.nextTimer) next hnext q
      · rw [if_neg hs]
        exact List.Sublist.refl _

theorem pqiGo_queues_sublist (p : Phase) : ∀ (fuel : Nat) (st : SchedState)
    (q : Phase), ((pqiGo fuel st p).queues q).Sublist (st.queues q) := by
  intro fuel
  induction fuel with
  | zero =>
    intro st q
    exact pqiStep_queues_sublist st p id (fun s q' => List.Sublist.refl _) q
  | succ f ih =>
    intro st q
    exact pqiStep_queues_sublist st p _ (fun s q' => ih s q') q

theorem not_mem_keysOf_filter (l : List Entry) (k : String) :
    k ∉ keysOf (l.filter (fun e => e.1 ≠ k)) := by
  intro hmem
  obtain ⟨e, he, hek⟩ := List.mem_map.mp hmem
  have := (List.mem_filter.mp he).2
  simp at this
  exact this hek

theorem dcb_key_removed (st : SchedState) (p : Phase) (k : String)
    (t? : Option Nat) (next : SchedState → SchedState)
    (hnext : ∀ s q, ((next s).queues q).Sublist (s.queues q)) :
    k ∉ keysOf ((dcbCore st p (some k) t? next).queues p) := by
  intro hmem
  unfold dcbCore at hmem
  rw [completeIfEmpty_queues] at hmem
  set s2 := deleteByKey (recordClearCall st t?) p (some k) with hs2
  have hq2 : s2.queues p = ((recordClearCall st t?).queues p).filter
      (fun e => e.1 ≠ k) := by
    rw [hs2]
    show (if p = p then _ else _) = _
    rw [if_pos rfl]
  have hsub : ((notifyCount s2 p next).queues p).Sublist (s2.queues p) := by
    unfold notifyCount
    by_cases hg : s2.subscribed p = true ∧ s2.completedSubj p = false ∧
        (s2.queues p).length ≠ 0
    · rw [if_pos hg]
      exact hnext s2 p
    · rw [if_neg hg]
  have hk : k ∈ keysOf (s2.queues p) := by
    obtain ⟨e, he, hek⟩ := List.mem_map.mp hmem
    exact List.mem_map.mpr ⟨e, hsub.subset he, hek⟩
  rw [hq2] at hk
  exact not_mem_keysOf_filter _ k hk

/-! ## Step frame: registered callbacks, finish flag, and trace growth -/

theorem processQueueFn_frame (st : SchedState) (p : Phase) :
    (processQueueFn st p).registered = st.registered ∧
    (processQueueFn st p).finishCompleted = st.finishCompleted ∧
    ∃ Δ, (processQueueFn st p).trace = st.trace ++ Δ ∧
      ∀ e ∈ Δ, phaseEvP p e := by
  unfold processQueueFn
  by_cases h : (st.queues p).length = 0
  · rw [if_pos h]
    have fr := frame_dcbCore p st none none id (fun s => frame_refl p s)
    exact ⟨fr.regEq, fr.finEq, fr.traceEq⟩
  · rw [if_neg h]
    have fr := frame_pqiGo p (st.queues p).length
      { st with subscribed := fun q => if q = p then true
        else st.subscribed q }
    exact ⟨fr.regEq, fr.finEq, fr.traceEq⟩

theorem runStoredDone_frame (st : SchedState) (p : Phase) (k : String)
    (tid : Nat) :
    (runStoredDone st p k tid).registered = st.registered ∧
    (runStoredDone st p k tid).finishCompleted = st.finishCompleted ∧
    ∃ Δ, (runStoredDone st p k tid).trace = st.trace ++ Δ ∧
      ∀ e ∈ Δ, phaseEvP p e := by
  unfold runStoredDone
  have fr := frame_dcbCore p st (some k) (some tid) _
    (fun s => frame_pqiGo p (s.queues p).length s)
  exact ⟨fr.regEq, fr.finEq, fr.traceEq⟩

theorem step_frame (st : SchedState) (e : EEvent) :
    (∀ c, c ∈ st.registered → c ∈ (step st e).registered) ∧
    (st.finishCompleted = true → (step st e).finishCompleted = true) ∧
    (∀ ev, ev ∈ st.trace → ev ∈ (step st e).trace) ∧
    (st.finishCompleted = true → ∀ c a,
      Ev.invoked c a ∈ (step st e).trace → Ev.invoked c a ∈ st.trace) := by
  cases e with
  | warmup =>
    have hstep : step st EEvent.warmup =
        (if st.warmupArmed = true ∧ st.warmupDone = false then
          { st with
            warmupDone := true,
            ticks := st.ticks ++ [TickTask.processQ
              Phase.frameworkBeforeBoot] }
        else st) := rfl
    rw [hstep]
    by_cases hg : st.warmupArmed = true ∧ st.warmupDone = false
    · rw [if_pos hg]
      exact ⟨fun c hc => hc, fun h => h, fun ev hv => hv, fun _ c a h => h⟩
    · rw [if_neg hg]
      exact ⟨fun c hc => hc, fun h => h, fun ev hv => hv, fun _ c a h => h⟩
  | tick =>
    cases hticks : st.ticks with
    | nil =>
      have hs : step st EEvent.tick = st := by
        unfold step
        rw [hticks]
      rw [hs]
      exact ⟨fun c hc => hc, fun h => h, fun ev hv => hv, fun _ c a h => h⟩
    | cons t rest =>
      have hs : step st EEvent.tick =
          runTask { st with ticks := rest } t := by
        unfold step
        rw [hticks]
      rw [hs]
      cases t with
      | processQ p =>
        have hs2 : runTask ({ st with ticks := rest } : SchedState)
            (TickTask.processQ p) =
            processQueueFn { st with ticks := rest } p := rfl
        rw [hs2]
        obtain ⟨h1, h2, Δ, h3, h4⟩ :=
          processQueueFn_frame { st with ticks := rest } p
        refine ⟨?_, ?_, ?_, ?_⟩
        · intro c hc
          rw [h1]
          exact hc
        · intro h
          rw [h2]
          exact h
        · intro ev hv
          rw [h3]
          exact List.mem_append_left _ hv
        · intro hf c a h
          rw [h3] at h
          rcases List.mem_append.mp h with h' | h'
          · exact h'
          · exact absurd (h4 _ h') (by simp [phaseEvP])
      | finishBoot =>
        have hs2 : runTask ({ st with ticks := rest } : SchedState)
            TickTask.finishBoot =
            { ({ st with ticks := rest } : SchedState) with
              ticks := rest ++ [TickTask.fireFinish] } := rfl
        rw [hs2]
        exact ⟨fun c hc => hc, fun h => h, fun ev hv => hv, fun _ c a h => h⟩
      | fireFinish =>
        have hs2 : runTask ({ st with ticks := rest } : SchedState)
            TickTask.fireFinish =
            (if ({ st with ticks := rest } : SchedState).finishCompleted =
              true then ({ st with ticks := rest } : SchedState)
            else { ({ st with ticks := rest } : SchedState) with
              trace := ({ st with ticks := rest } :
                  SchedState).trace ++ [Ev.finished] ++
                ({ st with ticks := rest } : SchedState).registered.map
                  (fun c => Ev.invoked c [true]),
              finishCompleted := true }) := rfl
        rw [hs2]
        by_cases hfc : st.finishCompleted = true
        · rw [if_pos hfc]
          exact ⟨fun c hc => hc, fun h => h, fun ev hv => hv,
            fun _ c a h => h⟩
        · rw [if_neg hfc]
          refine ⟨fun c hc => hc, fun _ => rfl,
            fun ev hv => List.mem_append_left _ (List.mem_append_left _ hv),
            fun hf => absurd hf hfc⟩
  | fireDone i =>
    have h0 : step st (EEvent.fireDone i) = (match st.stored.get? i with
        | none => st
        | some (p, k, tid) =>
          runStoredDone { st with stored := st.stored.eraseIdx i } p k tid) :=
      rfl
    cases hget : st.stored.get? i with
    | none =>
      have hs : step st (EEvent.fireDone i) = st := by rw [h0, hget]
      rw [hs]
      exact ⟨fun c hc => hc, fun h => h, fun ev hv => hv, fun _ c a h => h⟩
    | some en =>
      obtain ⟨p, k, tid⟩ := en
      have hs : step st (EEvent.fireDone i) = runStoredDone
          { st with stored := st.stored.eraseIdx i } p k tid := by
        rw [h0, hget]
      rw [hs]
      obtain ⟨h1, h2, Δ, h3, h4⟩ := runStoredDone_frame
        { st with stored := st.stored.eraseIdx i } p k tid
      refine ⟨?_, ?_, ?_, ?_⟩
      · intro c hc
        rw [h1]
        exact hc
      · intro h
        rw [h2]
        exact h
      · intro ev hv
        rw [h3]
        exact List.mem_append_left _ hv
      · intro hf c a h
        rw [h3] at h
        rcases List.mem_append.mp h with h' | h'
        · exact h'
        · exact absurd (h4 _ h') (by simp [phaseEvP])
  | fireTimer tid =>
    have hstep : step st (EEvent.fireTimer tid) =
        (if tid ∈ st.timers then
          { st with
            timers := st.timers.erase tid,
            trace := st.trace ++ [Ev.warned tid,
              Ev.clearedIntervalCall tid] }
        else st) := rfl
    rw [hstep]
    by_cases hmem : tid ∈ st.timers
    · rw [if_pos hmem]
      refine ⟨fun c hc => hc, fun h => h,
        fun ev hv => List.mem_append_left _ hv, fun _ c a h => ?_⟩
      rcases List.mem_append.mp h with h' | h'
      · exact h'
      · simp at h'
    · rw [if_neg hmem]
      exact ⟨fun c hc => hc, fun h => h, fun ev hv => hv, fun _ c a h => h⟩
  | regDone =>
    have hstep : step st EEvent.regDone = doneRegister st := rfl
    rw [hstep]
    unfold doneRegister
    by_cases hfc : st.finishCompleted = true
    · rw [if_pos hfc]
      refine ⟨fun c hc => hc, fun h => h,
        fun ev hv => List.mem_append_left _ hv, fun _ c a h => ?_⟩
      rcases List.mem_append.mp h with h' | h'
      · exact h'
      · simp at h'
    · rw [if_neg hfc]
      refine ⟨fun c hc => List.mem_append_left _ hc, fun h => h,
        fun ev hv => List.mem_append_left _ hv, fun _ c a h => ?_⟩
      rcases List.mem_append.mp h with h' | h'
      · exact h'
      · simp at h'
  | callBootstrap regs2 =>
    have hstep : step st (EEvent.callBootstrap regs2) =
        bootstrapFn regs2 st := rfl
    rw [hstep]
    unfold bootstrapFn
    by_cases hb : st.isBootstrapped = true
    · rw [if_pos hb]
      exact ⟨fun c hc => hc, fun h => h, fun ev hv => hv, fun _ c a h => h⟩
    · rw [if_neg hb]
      exact ⟨fun c hc => hc, fun h => h, fun ev hv => hv, fun _ c a h => h⟩

/-! ## Run-level helper lemmas -/

theorem run_append (regs : List Reg) (evs1 evs2 : List EEvent) :
    run regs (evs1 ++ evs2) = evs2.foldl step (run regs evs1) := by
  simp [run, List.foldl_append]

theorem run_snoc (regs : List Reg) (evs : List EEvent) (e : EEvent) :
    run regs (evs ++ [e]) = step (run regs evs) e := by
  simp [run, List.foldl_append]

/-- Extending a run preserves registered callbacks, the finish flag, and the
trace, and — once the finish signal has fired — produces no further
`invoked` events. -/
theorem run_extend (regs : List Reg) (evs1 evs2 : List EEvent) :
    (∀ c, c ∈ (run regs evs1).registered →
      c ∈ (run regs (evs1 ++ evs2)).registered) ∧
    ((run regs evs1).finishCompleted = true →
      (run regs (evs1 ++ evs2)).finishCompleted = true) ∧
    (∀ ev, ev ∈ (run regs evs1).trace → ev ∈ (run regs (evs1 ++ evs2)).trace) ∧
    ((run regs evs1).finishCompleted = true → ∀ c a,
      Ev.invoked c a ∈ (run regs (evs1 ++ evs2)).trace →
      Ev.invoked c a ∈ (run regs evs1).trace) := by
  induction evs2 using List.reverseRecOn with
  | nil =>
    simp only [List.append_nil]
    exact ⟨fun c hc => hc, fun h => h, fun ev hv => hv, fun _ c a h => h⟩
  | append_singleton l e ih =>
    obtain ⟨ih1, ih2, ih3, ih4⟩ := ih
    have hr : run regs (evs1 ++ (l ++ [e])) =
        step (run regs (evs1 ++ l)) e := by
      rw [← List.append_assoc]
      exact run_snoc regs (evs1 ++ l) e
    obtain ⟨s1, s2, s3, s4⟩ := step_frame (run regs (evs1 ++ l)) e
    rw [hr]
    exact ⟨fun c hc => s1 c (ih1 c hc), fun h => s2 (ih2 h),
      fun ev hv => s3 ev (ih3 ev hv),
      fun hf c a h => ih4 hf c a (s4 (ih2 hf) c a h)⟩

/-- No transition ever invokes `UtilsService.clearTimeout`: the only
cancellation primitive appearing in new trace events is `clearInterval`. -/
theorem step_no_clearTimeout (st : SchedState) (e : EEvent) (t : Nat)
    (h : Ev.clearedTimeoutCall t ∈ (step st e).trace) :
    Ev.clearedTimeoutCall t ∈ st.trace := by
  cases e with
  | warmup =>
    have hstep : step st EEvent.warmup =
        (if st.warmupArmed = true ∧ st.warmupDone = false then
          { st with
            warmupDone := true,
            ticks := st.ticks ++ [TickTask.processQ
              Phase.frameworkBeforeBoot] }
        else st) := rfl
    rw [hstep] at h
    by_cases hg : st.warmupArmed = true ∧ st.warmupDone = false
    · rw [if_pos hg] at h; exact h
    · rw [if_neg hg] at h; exact h
  | tick =>
    cases hticks : st.ticks with
    | nil =>
      have hs : step st EEvent.tick = st := by
        unfold step
        rw [hticks]
      rw [hs] at h
      exact h
    | cons tk rest =>
      have hs : step st EEvent.tick =
          runTask { st with ticks := rest } tk := by
        unfold step
        rw [hticks]
      rw [hs] at h
      cases tk with
      | processQ p =>
        have hs2 : runTask ({ st with ticks := rest } : SchedState)
            (TickTask.processQ p) =
            processQueueFn { st with ticks := rest } p := rfl
        rw [hs2] at h
        obtain ⟨h1, h2, Δ, h3, h4⟩ :=
          processQueueFn_frame { st with ticks := rest } p
        rw [h3] at h
        rcases List.mem_append.mp h with h' | h'
        · exact h'
        · exact absurd h' (clearedTimeout_phaseEv Δ h4)
      | finishBoot =>
        have hs2 : runTask ({ st with ticks := rest } : SchedState)
            TickTask.finishBoot =
            { ({ st with ticks := rest } : SchedState) with
              ticks := rest ++ [TickTask.fireFinish] } := rfl
        rw [hs2] at h
        exact h
      | fireFinish =>
        have hs2 : runTask ({ st with ticks := rest } : SchedState)
            TickTask.fireFinish =
            (if ({ st with ticks := rest } : SchedState).finishCompleted =
              true then ({ st with ticks := rest } : SchedState)
            else { ({ st with ticks := rest } : SchedState) with
              trace := ({ st with ticks := rest } :
                  SchedState).trace ++ [Ev.finished] ++
                ({ st with ticks := rest } : SchedState).registered.map
                  (fun c => Ev.invoked c [true]),
              finishCompleted := true }) := rfl
        rw [hs2] at h
        by_cases hfc : st.finishCompleted = true
        · rw [if_pos hfc] at h; exact h
        · rw [if_neg hfc] at h
          rcases List.mem_append.mp h with h' | h'
          · rcases List.mem_append.mp h' with h'' | h''
            · exact h''
            · simp at h''
          · obtain ⟨c, _, hc⟩ := List.mem_map.mp h'
            simp at hc
  | fireDone i =>
    have h0 : step st (EEvent.fireDone i) = (match st.stored.get? i with
        | none => st
        | some (p, k, tid) =>
          runStoredDone { st with stored := st.stored.eraseIdx i } p k tid) :=
      rfl
    cases hget : st.stored.get? i with
    | none =>
      have hs : step st (EEvent.fireDone i) = st := by rw [h0, hget]
      rw [hs] at h
      exact h
    | some en =>
      obtain ⟨p, k, tid⟩ := en
      have hs : step st (EEvent.fireDone i) = runStoredDone
          { st with stored := st.stored.eraseIdx i } p k tid := by
        rw [h0, hget]
      rw [hs] at h
      obtain ⟨h1, h2, Δ, h3, h4⟩ := runStoredDone_frame
        { st with stored := st.stored.eraseIdx i } p k tid
      rw [h3] at h
      rcases List.mem_append.mp h with h' | h'
      · exact h'
      · exact absurd h' (clearedTimeout_phaseEv Δ h4)
  | fireTimer tid =>
    have hstep : step st (EEvent.fireTimer tid) =
        (if tid ∈ st.timers then
          { st with
            timers := st.timers.erase tid,
            trace := st.trace ++ [Ev.warned tid,
              Ev.clearedIntervalCall tid] }
        else st) := rfl
    rw [hstep] at h
    by_cases hmem : tid ∈ st.timers
    · rw [if_pos hmem] at h
      rcases List.mem_append.mp h with h' | h'
      · exact h'
      · simp at h'
    · rw [if_neg hmem] at h; exact h
  | regDone =>
    have hstep : step st EEvent.regDone = doneRegister st := rfl
    rw [hstep] at h
    unfold doneRegister at h
    by_cases hfc : st.finishCompleted = true
    · rw [if_pos hfc] at h
      rcases List.mem_append.mp h with h' | h'
      · exact h'
      · simp at h'
    · rw [if_neg hfc] at h
      rcases List.mem_append.mp h with h' | h'
      · exact h'
      · simp at h'
  | callBootstrap regs2 =>
    have hstep : step st (EEvent.callBootstrap regs2) =
        bootstrapFn regs2 st := rfl
    rw [hstep] at h
    unfold bootstrapFn at h
    by_cases hb : st.isBootstrapped = true
    · rw [if_pos hb] at h; exact h
    · rw [if_neg hb] at h; exact h

/-- In no reachable state has `UtilsService.clearTimeout` ever been called:
the code cancels the one-shot watchdog handles exclusively through
`UtilsService.clearInterval`. -/
theorem run_no_clearTimeout (regs : List Reg) (evs : List EEvent) (t : Nat) :
    Ev.clearedTimeoutCall t ∉ (run regs evs).trace := by
  induction evs using List.reverseRecOn with
  | nil =>
    intro h
    have htr : (run regs []).trace = [] := by
      show (bootstrapFn regs idleState).trace = []
      rfl
    rw [htr] at h
    simp at h
  | append_singleton l e ih =>
    intro h
    rw [run_snoc] at h
    exact ih (step_no_clearTimeout _ e t h)

/-! ## The claims -/

/-- C2: For every phase queue and every run (in which, by construction of
the event model, each item's method invokes its completion callback exactly
once), items are started and completed in exact registration (insertion)
order: the completion trace and the start trace of phase `p` are precisely
successive prefixes of the initial key list of `p`'s queue, the pending
queue is the matching suffix (so the earliest-registered pending item is
always processed next), and at most one item is in flight. -/
theorem c2_registration_order (regs : List Reg) (evs : List EEvent)
    (p : Phase) :
    completedKeys p (run regs evs).trace =
      (keysOf (initQueues regs p)).take (doneCount p (run regs evs)) ∧
    startedKeys p (run regs evs).trace =
      (keysOf (initQueues regs p)).take (startCount p (run regs evs)) ∧
    (run regs evs).queues p =
      (initQueues regs p).drop (doneCount p (run regs evs)) ∧
    (startCount p (run regs evs) = doneCount p (run regs evs) ∨
     startCount p (run regs evs) = doneCount p (run regs evs) + 1) := by
  have hInv := inv_run regs evs
  exact ⟨hInv.compKeys p, hInv.startKeys p, hInv.dropEq p, hInv.startBound p⟩

/-- C4: When the item at the head of a phase queue resolves to an instance
lacking the registered method, `processQueueItem` logs the error naming the
target and method and does nothing else, regardless of the available
synchronous-cascade depth: the item is not removed, no watchdog is armed,
no completion callback is stored and no further item is processed — the
queue and the whole scheduler state are unchanged except for the log
entry. -/
theorem c4_missing_method_stalls (fuel : Nat) (st : SchedState) (p : Phase)
    (k : String) (r : Reg)
    (hh : (st.queues p).head? = some (k, r)) (hm : r.hasMethod = false) :
    pqiGo fuel st p =
      { st with trace := st.trace ++ [Ev.missingMethod p k] } := by
  have hstep : ∀ next, pqiStep st p next =
      { st with trace := st.trace ++ [Ev.missingMethod p k] } := by
    intro next
    unfold pqiStep
    rw [hh]
    dsimp only
    rw [if_pos hm]
  cases fuel with
  | zero => exact hstep id
  | succ f => exact hstep _

/-- C6: `bootstrap` is idempotent: on an already-bootstrapped instance it
returns immediately without any state change (no queue repopulation, no
warm-up timer, no re-wiring), and consequently appending a repeated
`bootstrap` call to any run leaves the run's final state unchanged — only
one full run ever executes. -/
theorem c6_bootstrap_idempotent (regs2 : List Reg) :
    (∀ st : SchedState, st.isBootstrapped = true →
      bootstrapFn regs2 st = st) ∧
    (∀ regs evs,
      run regs (evs ++ [EEvent.callBootstrap regs2]) = run regs evs) := by
  constructor
  · intro st hb
    unfold bootstrapFn
    rw [if_pos hb]
  · intro regs evs
    rw [run_snoc]
    have hstep : step (run regs evs) (EEvent.callBootstrap regs2) =
        bootstrapFn regs2 (run regs evs) := rfl
    rw [hstep]
    unfold bootstrapFn
    rw [if_pos (inv_run regs evs).boot]

/-- C10: The `Autoload` decorator records a queue item whose `methodName`
defaults to `"autoStart"` and whose `doneCheckTimeout` defaults to `5000`
milliseconds when the options object is omitted, empty, or partial, while
any explicitly supplied option field overrides its default. -/
theorem c10_autoload_defaults (t : Phase) (target : String)
    (config : List LoaderServiceQueueItemModel) :
    (Autoload t none target config =
      config ++ [⟨t, target, "autoStart", 5000⟩]) ∧
    (Autoload t (some ⟨none, none⟩) target config =
      config ++ [⟨t, target, "autoStart", 5000⟩]) ∧
    (∀ m, Autoload t (some ⟨some m, none⟩) target config =
      config ++ [⟨t, target, m, 5000⟩]) ∧
    (∀ d, Autoload t (some ⟨none, some d⟩) target config =
      config ++ [⟨t, target, "autoStart", d⟩]) ∧
    (∀ m d, Autoload t (some ⟨some m, some d⟩) target config =
      config ++ [⟨t, target, m, d⟩]) :=
  ⟨rfl, rfl, fun _ => rfl, fun _ => rfl, fun _ _ => rfl⟩

/-- C1: Phases are processed strictly in the fixed order
frameworkBeforeBoot, before, after, frameworkAfterBoot: whenever any item
of phase `q` has been started (resolved and invoked), every phase `p`
strictly earlier in the order has fully finished — every item initially
registered in `p` has invoked its completion callback (the completion
trace of `p` is the entire initial key list), `p`'s queue is empty, and
`p`'s drained event has fired (exactly once). -/
theorem c1_phase_order (regs : List Reg) (evs : List EEvent) (q : Phase)
    (k : String) (hst : Ev.started q k ∈ (run regs evs).trace) :
    ∀ p, phasePos p < phasePos q →
      completedKeys p (run regs evs).trace = keysOf (initQueues regs p) ∧
      (run regs evs).queues p = [] ∧
      (run regs evs).trace.count (Ev.drained p) = 1 := by
  intro p hpq
  have hInv := inv_run regs evs
  have hbegun : phaseBegun q (run regs evs) := by
    refine Or.inr <| Or.inr (Or.inl ?_)
    intro h0
    have hk : k ∈ startedKeys q (run regs evs).trace := mem_startedKeys.mpr hst
    have hnil : startedKeys q (run regs evs).trace = [] :=
      List.length_eq_zero.mp h0
    rw [hnil] at hk
    simp at hk
  have hc : (run regs evs).completedSubj p = true :=
    hInv.gating q hbegun p hpq
  have hqe : (run regs evs).queues p = [] := hInv.drainedEmpty p hc
  have hdrop := hInv.dropEq p
  rw [hqe] at hdrop
  have hlen : (initQueues regs p).length ≤ doneCount p (run regs evs) :=
    List.drop_eq_nil_iff.mp hdrop.symm
  have hck := hInv.compKeys p
  rw [List.take_of_length_le (by simpa [keysOf] using hlen)] at hck
  refine ⟨hck, hqe, ?_⟩
  have hd := hInv.drainedCount p
  rw [hc] at hd
  simpa using hd

/-- C5: For every phase queue, the drained event fires exactly once over
any run — once completed, the drained count is one and stays one, and
repeated zero-size states never re-emit; it fires only when the pending
count is zero; a queue that held items and became empty has fired it; and
`processQueue` on a (still unflagged) empty queue emits it at once,
scheduling the next phase and changing nothing else. -/
theorem c5_drained_once (regs : List Reg) (evs : List EEvent) (p : Phase) :
    ((run regs evs).trace.count (Ev.drained p) =
      if (run regs evs).completedSubj p then 1 else 0) ∧
    ((run regs evs).completedSubj p = true → (run regs evs).queues p = []) ∧
    ((run regs evs).queues p = [] → initQueues regs p ≠ [] →
      (run regs evs).completedSubj p = true) ∧
    (∀ st : SchedState, (st.queues p).length = 0 →
      st.completedSubj p = false →
      processQueueFn st p = { st with
        completedSubj := fun r => if r = p then true else st.completedSubj r,
        ticks := st.ticks ++ [nextTaskOf p],
        trace := st.trace ++ [Ev.drained p] }) := by
  have hInv := inv_run regs evs
  refine ⟨hInv.drainedCount p, hInv.drainedEmpty p, hInv.emptyDrained p, ?_⟩
  intro st hlen hflag
  unfold processQueueFn
  rw [if_pos hlen]
  unfold dcbCore
  have h1 : recordClearCall st none = st := rfl
  have h2 : deleteByKey st p none = st := rfl
  rw [h1, h2]
  have h3 : notifyCount st p id = st := by
    unfold notifyCount
    rw [if_neg (fun hcon => hcon.2.2 hlen)]
  rw [h3]
  unfold completeIfEmpty
  rw [if_pos ⟨hlen, hflag⟩]

/-- Registration list for the C3 counterexample: one synchronous item in
the first phase. -/
def regsC3 : List Reg :=
  [⟨Phase.frameworkBeforeBoot, "A", "autoStart", 5000, true, true⟩]

/-- C3 counterexample: in a run whose single item completes normally, a
watchdog `setTimeout` handle is armed and the completion callback does
record a cancellation call on that handle — but through
`UtilsService.clearInterval`, never through the matching
`UtilsService.clearTimeout`.  This refutes the claim as written ("the
one-shot timeout handle is cancelled via the matching timer-cancellation
primitive"). -/
theorem c3_counterexample :
    Ev.armedTimer 0 5000 ∈
      (run regsC3 [EEvent.warmup, EEvent.tick]).trace ∧
    Ev.completedIt Phase.frameworkBeforeBoot "A_autoStart" ∈
      (run regsC3 [EEvent.warmup, EEvent.tick]).trace ∧
    Ev.clearedIntervalCall 0 ∈
      (run regsC3 [EEvent.warmup, EEvent.tick]).trace ∧
    Ev.clearedTimeoutCall 0 ∉
      (run regsC3 [EEvent.warmup, EEvent.tick]).trace := by
  decide

/-- C3 (amended): when an in-flight item's completion callback fires, the
armed watchdog handle is passed to a cancellation primitive — but to
`UtilsService.clearInterval`, the interval-cancellation call, not to the
matching `UtilsService.clearTimeout` (which no run ever calls) — and the
item is removed from its phase queue by its key. -/
theorem c3_done_callback_cancellation (regs : List Reg) (evs : List EEvent)
    (i : Nat) (p : Phase) (k : String) (tid : Nat)
    (hget : (run regs evs).stored.get? i = some (p, k, tid)) :
    Ev.clearedIntervalCall tid ∈
      (run regs (evs ++ [EEvent.fireDone i])).trace ∧
    k ∉ keysOf ((run regs (evs ++ [EEvent.fireDone i])).queues p) ∧
    ∀ t, Ev.clearedTimeoutCall t ∉
      (run regs (evs ++ [EEvent.fireDone i])).trace := by
  have h3 : ∀ t, Ev.clearedTimeoutCall t ∉
      (run regs (evs ++ [EEvent.fireDone i])).trace :=
    fun t => run_no_clearTimeout regs _ t
  have hs : run regs (evs ++ [EEvent.fireDone i]) = runStoredDone
      { run regs evs with stored := (run regs evs).stored.eraseIdx i }
      p k tid := by
    rw [run_snoc]
    have h0 : step (run regs evs) (EEvent.fireDone i) =
        (match (run regs evs).stored.get? i with
        | none => run regs evs
        | some (p, k, tid) =>
          runStoredDone
            { run regs evs with stored := (run regs evs).stored.eraseIdx i }
            p k tid) := rfl
    rw [h0, hget]
  rw [hs] at h3 ⊢
  refine ⟨?_, ?_, h3⟩
  · show Ev.clearedIntervalCall tid ∈ (dcbCore
      { run regs evs with stored := (run regs evs).stored.eraseIdx i }
      p (some k) (some tid)
      (fun s => pqiGo (s.queues p).length s p)).trace
    unfold dcbCore
    have h1 : (recordClearCall
        { run regs evs with stored := (run regs evs).stored.eraseIdx i }
        (some tid)).trace =
        (run regs evs).trace ++ [Ev.clearedIntervalCall tid] := rfl
    have fr : PhaseFrame p
        (recordClearCall
          { run regs evs with stored := (run regs evs).stored.eraseIdx i }
          (some tid))
        (completeIfEmpty (notifyCount (deleteByKey
          (recordClearCall
            { run regs evs with stored := (run regs evs).stored.eraseIdx i }
            (some tid)) p (some k)) p
          (fun s => pqiGo (s.queues p).length s p)) p) :=
      frame_trans (frame_trans
        (frame_deleteByKey p _ (some k))
        (frame_notifyCount p _ _ (fun s => frame_pqiGo p (s.queues p).length s)))
        (frame_completeIfEmpty p _)
    obtain ⟨Δ, hΔ, _⟩ := fr.traceEq
    rw [hΔ, h1]
    refine List.mem_append_left _ (List.mem_append_right _ ?_)
    simp
  · show k ∉ keysOf ((dcbCore
      { run regs evs with stored := (run regs evs).stored.eraseIdx i }
      p (some k) (some tid)
      (fun s => pqiGo (s.queues p).length s p)).queues p)
    exact dcb_key_removed _ p k (some tid) _
      (fun s q => pqiGo_queues_sublist p _ s q)

/-- Event list for the C7 counterexample: register one `done` callback,
then let an empty bootstrap run all the way to the finish signal. -/
def evsC7 : List EEvent :=
  [EEvent.regDone, EEvent.warmup, EEvent.tick, EEvent.tick, EEvent.tick,
   EEvent.tick, EEvent.tick, EEvent.tick]

/-- C7 counterexample: a callback registered via `done` before the finish
signal fires is invoked — but with the single argument `true` (the value
`finishSubject$.next(true)` delivers through the `filter(isFinished)`
pipe), not with no arguments.  This refutes the claim as written ("the
callback is invoked with no arguments"). -/
theorem c7_counterexample :
    (run [] evsC7).finishCompleted = true ∧
    Ev.invoked 0 [true] ∈ (run [] evsC7).trace ∧
    Ev.invoked 0 [] ∉ (run [] evsC7).trace := by
  decide

/-- C7 (amended): every callback registered via `done` before the finish
signal fires is invoked when it fires — with the single argument `true`
that the subject emits. -/
theorem c7_done_callbacks_invoked (regs : List Reg) (evs1 evs2 : List EEvent)
    (c : Nat) (hc : c ∈ (run regs evs1).registered)
    (hf : (run regs (evs1 ++ evs2)).finishCompleted = true) :
    Ev.invoked c [true] ∈ (run regs (evs1 ++ evs2)).trace := by
  have hreg := (run_extend regs evs1 evs2).1 c hc
  exact (inv_run regs (evs1 ++ evs2)).finInv hf c hreg

/-- C8: a callback registered via `done` after the finish signal has
already fired is never invoked, no matter how the run continues: the
one-shot subject has completed and a subscription made after completion
receives no emissions (no replay). -/
theorem c8_late_done_never_invoked (regs : List Reg) (evs1 evs2 : List EEvent)
    (a : List Bool)
    (hf : (run regs evs1).finishCompleted = true) :
    Ev.invoked (run regs evs1).nextCb a ∉
      (run regs ((evs1 ++ [EEvent.regDone]) ++ evs2)).trace := by
  intro hmem
  have hreg : run regs (evs1 ++ [EEvent.regDone]) =
      doneRegister (run regs evs1) :=
    run_snoc regs evs1 EEvent.regDone
  have hdr : doneRegister (run regs evs1) = { run regs evs1 with
      trace := (run regs evs1).trace ++
        [Ev.registeredDone (run regs evs1).nextCb],
      nextCb := (run regs evs1).nextCb + 1 } := by
    unfold doneRegister
    rw [if_pos hf]
  have hf2 : (run regs (evs1 ++ [EEvent.regDone])).finishCompleted = true := by
    rw [hreg, hdr]
    exact hf
  have h4 := (run_extend regs (evs1 ++ [EEvent.regDone]) evs2).2.2.2 hf2
    (run regs evs1).nextCb a hmem
  rw [hreg, hdr] at h4
  rcases List.mem_append.mp h4 with h' | h'
  · have hinv := (inv_run regs evs1).invArgs _ _ h'
    have hlt := (inv_run regs evs1).regLt _ hinv.1
    exact absurd hlt (lt_irrefl _)
  · simp at h'

/-- C9: when an in-flight item's watchdog timeout elapses before its
completion callback, the handler only logs the warning (and issues its own
mismatched `clearInterval` call on the elapsed handle): the item stays in
its phase queue, nothing is retried or aborted, no second watchdog is
armed, and the stored completion callback still works afterwards — firing
it still removes the item from its queue by key. -/
theorem c9_watchdog_only_warns (regs : List Reg) (evs : List EEvent)
    (tid : Nat) (hmem : tid ∈ (run regs evs).timers) :
    (run regs (evs ++ [EEvent.fireTimer tid]) =
      { run regs evs with
        timers := (run regs evs).timers.erase tid,
        trace := (run regs evs).trace ++
          [Ev.warned tid, Ev.clearedIntervalCall tid] }) ∧
    (∀ i p k t, (run regs evs).stored.get? i = some (p, k, t) →
      k ∉ keysOf ((run regs ((evs ++ [EEvent.fireTimer tid]) ++
        [EEvent.fireDone i])).queues p)) := by
  have h1 : run regs (evs ++ [EEvent.fireTimer tid]) =
      { run regs evs with
        timers := (run regs evs).timers.erase tid,
        trace := (run regs evs).trace ++
          [Ev.warned tid, Ev.clearedIntervalCall tid] } := by
    rw [run_snoc]
    have hstep : step (run regs evs) (EEvent.fireTimer tid) =
        (if tid ∈ (run regs evs).timers then
          { run regs evs with
            timers := (run regs evs).timers.erase tid,
            trace := (run regs evs).trace ++
              [Ev.warned tid, Ev.clearedIntervalCall tid] }
        else run regs evs) := rfl
    rw [hstep, if_pos hmem]
  refine ⟨h1, ?_⟩
  intro i p k t hget
  rw [run_snoc, h1]
  have hget1 : ({ run regs evs with
      timers := (run regs evs).timers.erase tid,
      trace := (run regs evs).trace ++
        [Ev.warned tid, Ev.clearedIntervalCall tid] } :
      SchedState).stored.get? i = some (p, k, t) := hget
  have hs : step ({ run regs evs with
      timers := (run regs evs).timers.erase tid,
      trace := (run regs evs).trace ++
        [Ev.warned tid, Ev.clearedIntervalCall tid] } : SchedState)
      (EEvent.fireDone i) = runStoredDone
      { ({ run regs evs with
          timers := (run regs evs).timers.erase tid,
          trace := (run regs evs).trace ++
            [Ev.warned tid, Ev.clearedIntervalCall tid] } : SchedState) with
        stored := (run regs evs).stored.eraseIdx i } p k t := by
    have h0 : step ({ run regs evs with
        timers := (run regs evs).timers.erase tid,
        trace := (run regs evs).trace ++
          [Ev.warned tid, Ev.clearedIntervalCall tid] } : SchedState)
        (EEvent.fireDone i) =
        (match ({ run regs evs with
            timers := (run regs evs).timers.erase tid,
            trace := (run regs evs).trace ++
              [Ev.warned tid, Ev.clearedIntervalCall tid] } :
            SchedState).stored.get? i with
        | none => ({ run regs evs with
            timers := (run regs evs).timers.erase tid,
            trace := (run regs evs).trace ++
              [Ev.warned tid, Ev.clearedIntervalCall tid] } : SchedState)
        | some (p, k, tid') =>
          runStoredDone
            { ({ run regs evs with
                timers := (run regs evs).timers.erase tid,
                trace := (run regs evs).trace ++
                  [Ev.warned tid, Ev.clearedIntervalCall tid] } :
                SchedState) with
              stored := (run regs evs).stored.eraseIdx i } p k tid') := rfl
    rw [h0, hget1]
  rw [hs]
  show k ∉ keysOf ((dcbCore
    { ({ run regs evs with
        timers := (run regs evs).timers.erase tid,
        trace := (run regs evs).trace ++
          [Ev.warned tid, Ev.clearedIntervalCall tid] } : SchedState) with
      stored := (run regs evs).stored.eraseIdx i }
    p (some k) (some t)
    (fun s => pqiGo (s.queues p).length s p)).queues p)
  exact dcb_key_removed _ p k (some t) _
    (fun s q => pqiGo_queues_sublist p _ s q)

/-! ## Witnesses -/

/-- Registration list for the C1 witness: one synchronous item in each of
the first two phases. -/
def regsC1 : List Reg :=
  [⟨Phase.frameworkBeforeBoot, "A", "autoStart", 5000, true, true⟩,
   ⟨Phase.before, "B", "autoStart", 5000, true, true⟩]

/-- Event list for the C1 witness. -/
def evsC1 : List EEvent := [EEvent.warmup, EEvent.tick, EEvent.tick]

/-- Witness for C1 on a concrete two-phase run: the `before` item has
started, so `frameworkBeforeBoot` is fully completed and drained. -/
theorem c1_phase_order_witness :
    Ev.started Phase.before "B_autoStart" ∈ (run regsC1 evsC1).trace ∧
    phasePos Phase.frameworkBeforeBoot < phasePos Phase.before ∧
    (completedKeys Phase.frameworkBeforeBoot (run regsC1 evsC1).trace =
      keysOf (initQueues regsC1 Phase.frameworkBeforeBoot) ∧
     (run regsC1 evsC1).queues Phase.frameworkBeforeBoot = [] ∧
     (run regsC1 evsC1).trace.count
       (Ev.drained Phase.frameworkBeforeBoot) = 1) :=
  ⟨by decide, by decide,
   c1_phase_order regsC1 evsC1 Phase.before "B_autoStart" (by decide)
     Phase.frameworkBeforeBoot (by decide)⟩

/-- Registration list for the C3 witness: one asynchronous item, so that a
completion callback is stored and fired by the environment. -/
def regsC3w : List Reg :=
  [⟨Phase.frameworkBeforeBoot, "A", "autoStart", 5000, true, false⟩]

/-- Witness for C3 (amended) on a concrete run with one stored completion
callback. -/
theorem c3_done_callback_cancellation_witness :
    (run regsC3w [EEvent.warmup, EEvent.tick]).stored.get? 0 =
      some (Phase.frameworkBeforeBoot, "A_autoStart", 0) ∧
    Ev.clearedIntervalCall 0 ∈
      (run regsC3w ([EEvent.warmup, EEvent.tick] ++
        [EEvent.fireDone 0])).trace ∧
    "A_autoStart" ∉ keysOf ((run regsC3w ([EEvent.warmup, EEvent.tick] ++
      [EEvent.fireDone 0])).queues Phase.frameworkBeforeBoot) ∧
    Ev.clearedTimeoutCall 0 ∉
      (run regsC3w ([EEvent.warmup, EEvent.tick] ++
        [EEvent.fireDone 0])).trace :=
  ⟨by decide,
   (c3_done_callback_cancellation regsC3w [EEvent.warmup, EEvent.tick] 0
     Phase.frameworkBeforeBoot "A_autoStart" 0 (by decide)).1,
   (c3_done_callback_cancellation regsC3w [EEvent.warmup, EEvent.tick] 0
     Phase.frameworkBeforeBoot "A_autoStart" 0 (by decide)).2.1,
   (c3_done_callback_cancellation regsC3w [EEvent.warmup, EEvent.tick] 0
     Phase.frameworkBeforeBoot "A_autoStart" 0 (by decide)).2.2 0⟩

/-- Registration list for the C4 witness: one item whose resolved instance
lacks the registered method. -/
def regsC4 : List Reg :=
  [⟨Phase.frameworkBeforeBoot, "A", "autoStart", 5000, false, true⟩]

/-- Witness for C4 on a concrete bootstrapped state. -/
theorem c4_missing_method_stalls_witness :
    ((run regsC4 []).queues Phase.frameworkBeforeBoot).head? =
      some ("A_autoStart",
        ⟨Phase.frameworkBeforeBoot, "A", "autoStart", 5000, false, true⟩) ∧
    pqiGo 3 (run regsC4 []) Phase.frameworkBeforeBoot =
      { run regsC4 [] with trace := (run regsC4 []).trace ++
        [Ev.missingMethod Phase.frameworkBeforeBoot "A_autoStart"] } :=
  ⟨by decide,
   c4_missing_method_stalls 3 (run regsC4 []) Phase.frameworkBeforeBoot
     "A_autoStart"
     ⟨Phase.frameworkBeforeBoot, "A", "autoStart", 5000, false, true⟩
     (by decide) (by decide)⟩

/-- Registration list for the C5 witness: one synchronous item in the
`before` phase. -/
def regsC5 : List Reg :=
  [⟨Phase.before, "B", "autoStart", 5000, true, true⟩]

/-- Event list for the C5 witness: the `before` phase drains. -/
def evsC5 : List EEvent := [EEvent.warmup, EEvent.tick, EEvent.tick]

/-- Witness for C5 on a concrete run in which the `before` phase has
drained, plus the empty-queue emission on the idle state. -/
theorem c5_drained_once_witness :
    ((run regsC5 evsC5).trace.count (Ev.drained Phase.before) =
      if (run regsC5 evsC5).completedSubj Phase.before then 1 else 0) ∧
    (run regsC5 evsC5).queues Phase.before = [] ∧
    (run regsC5 evsC5).completedSubj Phase.before = true ∧
    processQueueFn idleState Phase.before = { idleState with
      completedSubj := fun r => if r = Phase.before then true
        else idleState.completedSubj r,
      ticks := idleState.ticks ++ [nextTaskOf Phase.before],
      trace := idleState.trace ++ [Ev.drained Phase.before] } :=
  ⟨(c5_drained_once regsC5 evsC5 Phase.before).1,
   (c5_drained_once regsC5 evsC5 Phase.before).2.1 (by decide),
   (c5_drained_once regsC5 evsC5 Phase.before).2.2.1 (by decide) (by decide),
   (c5_drained_once regsC5 evsC5 Phase.before).2.2.2 idleState
     (by decide) (by decide)⟩

/-- Witness for C6: a second `bootstrap` call on a concretely bootstrapped
instance is a no-op, both directly and appended to a run. -/
theorem c6_bootstrap_idempotent_witness :
    (run [] []).isBootstrapped = true ∧
    bootstrapFn [⟨Phase.before, "B", "autoStart", 5000, true, true⟩]
      (run [] []) = run [] [] ∧
    run [] [EEvent.callBootstrap
      [⟨Phase.before, "B", "autoStart", 5000, true, true⟩]] = run [] [] :=
  ⟨by decide,
   (c6_bootstrap_idempotent
     [⟨Phase.before, "B", "autoStart", 5000, true, true⟩]).1
     (run [] []) (by decide),
   by simpa using (c6_bootstrap_idempotent
     [⟨Phase.before, "B", "autoStart", 5000, true, true⟩]).2 [] []⟩

/-- Witness for C7 (amended) on the concrete finishing run. -/
theorem c7_done_callbacks_invoked_witness :
    0 ∈ (run [] [EEvent.regDone]).registered ∧
    (run [] ([EEvent.regDone] ++ [EEvent.warmup, EEvent.tick, EEvent.tick,
      EEvent.tick, EEvent.tick, EEvent.tick,
      EEvent.tick])).finishCompleted = true ∧
    Ev.invoked 0 [true] ∈ (run [] ([EEvent.regDone] ++ [EEvent.warmup,
      EEvent.tick, EEvent.tick, EEvent.tick, EEvent.tick, EEvent.tick,
      EEvent.tick])).trace :=
  ⟨by decide, by decide,
   c7_done_callbacks_invoked [] [EEvent.regDone]
     [EEvent.warmup, EEvent.tick, EEvent.tick, EEvent.tick, EEvent.tick,
      EEvent.tick, EEvent.tick] 0 (by decide) (by decide)⟩

/-- Event list for the C8 witness: an empty bootstrap runs to the finish
signal before any `done` registration. -/
def evsC8 : List EEvent :=
  [EEvent.warmup, EEvent.tick, EEvent.tick, EEvent.tick, EEvent.tick,
   EEvent.tick, EEvent.tick]

/-- Witness for C8 on the concrete finished run: the callback registered
afterwards is never invoked. -/
theorem c8_late_done_never_invoked_witness :
    (run [] evsC8).finishCompleted = true ∧
    Ev.invoked (run [] evsC8).nextCb [true] ∉
      (run [] ((evsC8 ++ [EEvent.regDone]) ++
        [EEvent.tick, EEvent.tick])).trace :=
  ⟨by decide,
   c8_late_done_never_invoked [] evsC8 [EEvent.tick, EEvent.tick] [true]
     (by decide)⟩

/-- Registration list for the C9 witness: one asynchronous item whose
watchdog will elapse. -/
def regsC9 : List Reg :=
  [⟨Phase.frameworkBeforeBoot, "A", "autoStart", 5000, true, false⟩]

/-- Witness for C9 on a concrete run whose armed watchdog fires and whose
item later completes normally. -/
theorem c9_watchdog_only_warns_witness :
    0 ∈ (run regsC9 [EEvent.warmup, EEvent.tick]).timers ∧
    (run regsC9 ([EEvent.warmup, EEvent.tick] ++ [EEvent.fireTimer 0]) =
      { run regsC9 [EEvent.warmup, EEvent.tick] with
        timers := (run regsC9 [EEvent.warmup, EEvent.tick]).timers.erase 0,
        trace := (run regsC9 [EEvent.warmup, EEvent.tick]).trace ++
          [Ev.warned 0, Ev.clearedIntervalCall 0] }) ∧
    "A_autoStart" ∉ keysOf ((run regsC9 (([EEvent.warmup, EEvent.tick] ++
      [EEvent.fireTimer 0]) ++ [EEvent.fireDone 0])).queues
      Phase.frameworkBeforeBoot) :=
  ⟨by decide,
   (c9_watchdog_only_warns regsC9 [EEvent.warmup, EEvent.tick] 0
     (by decide)).1,
   (c9_watchdog_only_warns regsC9 [EEvent.warmup, EEvent.tick] 0
     (by decide)).2 0 Phase.frameworkBeforeBoot "A_autoStart" 0
     (by decide)⟩
